import Mathlib

/-!
# Verification of gbwtgraph against its specification

Shallow embedding of the parts of the `gbwtgraph` sources needed to settle the
frozen claims: the reverse-complement utility and the `SequenceSource` store
(`utils.cpp`), the GBZ container header and tag handling (`gbz.cpp`, `gbz.h`),
the graph algorithms (`algorithms.cpp`), and the `subgraph_query` command-line
tool (`subgraph_query.cpp`).

Machine integers (`size_t`) are modelled as `Nat`; where the C++ code can
decrement a `size_t` that is `0` — so that the wrap-around to `2^64 - 1`
matters for control flow — we model the decrement explicitly as
`(c + (2^64 - 1)) % 2^64`.
-/

namespace GbwtGraph

/-! ## Reverse complement (`utils.cpp`, lines 51-97)

`complementTable` is a verbatim transcription of the 256-entry
`const std::vector<char> complement` initializer in `utils.cpp`. -/

def complementTable : List Char :=
  [ 'N', 'N', 'N', 'N', 'N', 'N', 'N', 'N',   'N', 'N', 'N', 'N', 'N', 'N', 'N', 'N',
    'N', 'N', 'N', 'N', 'N', 'N', 'N', 'N',   'N', 'N', 'N', 'N', 'N', 'N', 'N', 'N',
    'N', 'N', 'N', '$', '#', 'N', 'N', 'N',   'N', 'N', 'N', 'N', 'N', '-', 'N', 'N',
    'N', 'N', 'N', 'N', 'N', 'N', 'N', 'N',   'N', 'N', 'N', 'N', 'N', 'N', 'N', 'N',

    'N', 'T', 'V', 'G', 'H', 'N', 'N', 'C',   'D', 'N', 'N', 'M', 'N', 'K', 'N', 'N',
    'N', 'Q', 'Y', 'W', 'A', 'A', 'B', 'S',   'N', 'R', 'N', 'N', 'N', 'N', 'N', 'N',
    'N', 't', 'v', 'g', 'h', 'N', 'N', 'c',   'd', 'N', 'N', 'm', 'N', 'k', 'n', 'N',
    'N', 'q', 'y', 'w', 'a', 'a', 'b', 's',   'N', 'r', 'N', 'N', 'N', 'N', 'N', 'N',

    'N', 'N', 'N', 'N', 'N', 'N', 'N', 'N',   'N', 'N', 'N', 'N', 'N', 'N', 'N', 'N',
    'N', 'N', 'N', 'N', 'N', 'N', 'N', 'N',   'N', 'N', 'N', 'N', 'N', 'N', 'N', 'N',
    'N', 'N', 'N', 'N', 'N', 'N', 'N', 'N',   'N', 'N', 'N', 'N', 'N', 'N', 'N', 'N',
    'N', 'N', 'N', 'N', 'N', 'N', 'N', 'N',   'N', 'N', 'N', 'N', 'N', 'N', 'N', 'N',

    'N', 'N', 'N', 'N', 'N', 'N', 'N', 'N',   'N', 'N', 'N', 'N', 'N', 'N', 'N', 'N',
    'N', 'N', 'N', 'N', 'N', 'N', 'N', 'N',   'N', 'N', 'N', 'N', 'N', 'N', 'N', 'N',
    'N', 'N', 'N', 'N', 'N', 'N', 'N', 'N',   'N', 'N', 'N', 'N', 'N', 'N', 'N', 'N',
    'N', 'N', 'N', 'N', 'N', 'N', 'N', 'N',   'N', 'N', 'N', 'N', 'N', 'N', 'N', 'N' ]

/-- `complement[c]`: index the table by the character code.  The C++ indexes a
256-entry `std::vector<char>` with a (7-bit ASCII) character; indices outside
the table would be undefined behaviour in C++, so the default value is
irrelevant for any input the C++ can legally see. -/
def complementChar (c : Char) : Char :=
  complementTable.getD c.toNat 'N'

/-- Embeds `reverse_complement_in_place` (`utils.cpp` lines 82-97).  The C++
two-pointer loop runs `i` from `0` and `j` from `size-1` towards the middle,
assigning `seq[i] = complement[seq[j]]` and `seq[j] = complement[tmp]` where
`tmp` was the old `seq[i]`, and complements the middle character when the
length is odd.  Position by position, entry `k` of the result is the
complement of entry `size-1-k` of the input — i.e. the reverse of the
complement-mapped string, which is what we write here. -/
def reverse_complement_in_place (seq : List Char) : List Char :=
  (seq.map complementChar).reverse

/-- Embeds `reverse_complement` (`utils.cpp` lines 74-80): copy the string and
run `reverse_complement_in_place` on the copy. -/
def reverse_complement (seq : List Char) : List Char :=
  reverse_complement_in_place seq

/-- The IUPAC nucleotide codes with `U`/`u` removed, in both cases.  The full
documented IUPAC nucleotide alphabet adds `U` (uracil), which the complement
table sends to `A` while `A` is sent to `T`. -/
def iupacWithoutU : List Char :=
  [ 'A', 'C', 'G', 'T', 'R', 'Y', 'S', 'W', 'K', 'M', 'B', 'D', 'H', 'V', 'N',
    'a', 'c', 'g', 't', 'r', 'y', 's', 'w', 'k', 'm', 'b', 'd', 'h', 'v', 'n' ]

theorem reverse_complement_eq_map_reverse (seq : List Char) :
    reverse_complement seq = (seq.map complementChar).reverse := rfl

theorem reverse_complement_twice (seq : List Char) :
    reverse_complement (reverse_complement seq)
      = seq.map (fun c => complementChar (complementChar c)) := by
  simp [reverse_complement, reverse_complement_in_place, List.map_reverse,
    List.map_map, Function.comp]

/-- The claim of C1 is false as stated: `U` belongs to the documented IUPAC
nucleotide alphabet, yet applying `reverse_complement` twice to `"U"` yields
`"T"` (the table complements `U` to `A` and `A` to `T`). -/
theorem reverse_complement_involution_fails_on_U :
    reverse_complement (reverse_complement ['U']) = ['T'] ∧ ('T' : Char) ≠ 'U' := by
  constructor
  · decide
  · decide

/-- C1, amended: over the IUPAC nucleotide alphabet with `U` and `u` removed
(both cases of `A C G T R Y S W K M B D H V N`), `reverse_complement` is an
involution. -/
theorem reverse_complement_involution (seq : List Char)
    (h : ∀ c ∈ seq, c ∈ iupacWithoutU) :
    reverse_complement (reverse_complement seq) = seq := by
  rw [reverse_complement_twice]
  have hcc : ∀ c ∈ seq, complementChar (complementChar c) = c := by
    intro c hc
    have hmem := h c hc
    revert hmem
    have htable : ∀ c ∈ iupacWithoutU, complementChar (complementChar c) = c := by decide
    exact htable c
  calc seq.map (fun c => complementChar (complementChar c))
      = seq.map id := List.map_congr_left hcc
    _ = seq := List.map_id seq

/-- Witness for the amended C1 at a concrete input covering every letter of
the alphabet. -/
theorem reverse_complement_involution_witness :
    (∀ c ∈ iupacWithoutU, c ∈ iupacWithoutU) ∧
      reverse_complement (reverse_complement iupacWithoutU) = iupacWithoutU :=
  ⟨fun _ hc => hc, reverse_complement_involution iupacWithoutU (fun _ hc => hc)⟩

/-! ## `SequenceSource` (`utils.cpp`, lines 101-148)

The structure's fields are declared in `utils.h` (not among the provided
sources); their shape follows the data model in the spec (§3) and the way
`utils.cpp` uses them: `nodes` maps a node id to an `(offset, length)` pair
into the concatenated `sequences` buffer, `segment_translation` maps a segment
name to a `[start, limit)` node-id range, and `next_id` is the id allocator.
The two `unordered_map`s are modelled as association lists (new keys are
appended; lookup is by key). `view_type` is `std::pair<const char*, size_t>`,
modelled as a list of characters paired with the view length. -/

structure SequenceSource where
  nodes : List (Nat × Nat × Nat) := []
  sequences : List Char := []
  segment_translation : List (String × Nat × Nat) := []
  next_id : Nat := 1
deriving Repr, DecidableEq

/-- Embeds `SequenceSource::add_node(nid_t, const std::string&)`
(`utils.cpp` lines 112-120): return unchanged on an empty sequence or an
already-present id; otherwise append the characters to the buffer and record
`(offset, length)` at the buffer position where they start. -/
def SequenceSource.add_node (s : SequenceSource) (id : Nat) (sequence : List Char) :
    SequenceSource :=
  if sequence.isEmpty then s
  else if (s.nodes.lookup id).isSome then s
  else
    { s with
      sequences := s.sequences ++ sequence
      nodes := s.nodes ++ [(id, s.sequences.length, sequence.length)] }

/-- Embeds `SequenceSource::add_node(nid_t, view_type)` (`utils.cpp` lines
122-130): same as the string overload, but the view's declared length is used
for the emptiness test, the number of inserted characters, and the recorded
length. -/
def SequenceSource.add_node_view (s : SequenceSource) (id : Nat)
    (sequence : List Char × Nat) : SequenceSource :=
  if sequence.2 = 0 then s
  else if (s.nodes.lookup id).isSome then s
  else
    { s with
      sequences := s.sequences ++ sequence.1.take sequence.2
      nodes := s.nodes ++ [(id, s.sequences.length, sequence.2)] }

/-- One iteration of the chopping loop in `translate_segment` (`utils.cpp`
lines 139-144), at piece index `k` (the C++ loop variable is `id = start + k`):
`offset = (id - start) * max_length`, `length = min(max_length, L - offset)`,
and the piece is the view starting `offset` characters into the segment. -/
def SequenceSource.translate_piece (sequence : List Char) (start max_length : Nat)
    (s : SequenceSource) (k : Nat) : SequenceSource :=
  s.add_node_view (start + k)
    (sequence.drop (k * max_length), min max_length (sequence.length - k * max_length))

/-- Embeds `SequenceSource::translate_segment` (`utils.cpp` lines 132-148):
return unchanged if the name is already translated or the sequence is empty;
otherwise chop the segment into `(L + max_length - 1) / max_length` pieces
with consecutive ids starting at `next_id`, record the translation range, and
advance `next_id`. -/
def SequenceSource.translate_segment (s : SequenceSource) (name : String)
    (sequence : List Char) (max_length : Nat) : SequenceSource :=
  if (s.segment_translation.lookup name).isSome || sequence.length = 0 then s
  else
    let start := s.next_id
    let limit := start + (sequence.length + max_length - 1) / max_length
    let s' := (List.range (limit - start)).foldl
      (SequenceSource.translate_piece sequence start max_length) s
    { s' with
      segment_translation := s'.segment_translation ++ [(name, start, limit)]
      next_id := limit }

/-! ### Association-list helpers (the `unordered_map` model) -/

theorem lookup_append {α β : Type} [BEq α] (l₁ l₂ : List (α × β)) (a : α) :
    (l₁ ++ l₂).lookup a = ((l₁.lookup a).orElse (fun _ => l₂.lookup a)) := by
  induction l₁ with
  | nil => rfl
  | cons p l ih =>
    by_cases h : a == p.1 <;> simp [List.lookup, h, ih]

theorem lookup_eq_none {α β : Type} [BEq α] [LawfulBEq α] (l : List (α × β)) (a : α)
    (h : ∀ p ∈ l, p.1 ≠ a) : l.lookup a = none := by
  induction l with
  | nil => rfl
  | cons p l ih =>
    have hp : p.1 ≠ a := h p (List.mem_cons_self p l)
    have hne : (a == p.1) = false := by
      simp [beq_eq_false_iff_ne]
      exact fun hh => hp hh.symm
    simp only [List.lookup, hne]
    exact ih (fun q hq => h q (List.mem_cons_of_mem p hq))

/-- The stored sequence of a node: the slice of the concatenated buffer
described by the node's `(offset, length)` entry, per the data-model invariant
of the spec (§3). -/
def SequenceSource.node_sequence (s : SequenceSource) (id : Nat) : Option (List Char) :=
  (s.nodes.lookup id).map (fun ol => (s.sequences.drop ol.1).take ol.2)

/-- C10: `add_node` with an empty sequence, or with an id that is already
present, leaves the whole `SequenceSource` unchanged — for both the string
overload and the view overload.  In particular an existing node's sequence is
never overwritten. -/
theorem add_node_noop (s : SequenceSource) (id : Nat) (q : List Char)
    (v : List Char × Nat) :
    (q = [] ∨ (s.nodes.lookup id).isSome → s.add_node id q = s) ∧
    (v.2 = 0 ∨ (s.nodes.lookup id).isSome → s.add_node_view id v = s) := by
  constructor
  · intro h
    rcases h with h | h
    · simp [SequenceSource.add_node, h]
    · by_cases hq : q.isEmpty <;> simp [SequenceSource.add_node, hq, h]
  · intro h
    rcases h with h | h
    · simp [SequenceSource.add_node_view, h]
    · by_cases hv : v.2 = 0 <;> simp [SequenceSource.add_node_view, hv, h]

/-- Witness for C10: both no-op cases at concrete inputs. -/
theorem add_node_noop_witness :
    (([] : List Char) = [] ∨
        (((⟨[(5, 0, 2)], ['A', 'C'], [], 6⟩ : SequenceSource).nodes.lookup 5).isSome)) ∧
      SequenceSource.add_node ⟨[(5, 0, 2)], ['A', 'C'], [], 6⟩ 5 [] =
        (⟨[(5, 0, 2)], ['A', 'C'], [], 6⟩ : SequenceSource) :=
  ⟨Or.inl rfl,
    (add_node_noop ⟨[(5, 0, 2)], ['A', 'C'], [], 6⟩ 5 [] (['G'], 1)).1 (Or.inl rfl)⟩

/-! ### C9: `translate_segment` chops a fresh segment into `⌈L/m⌉` nodes -/

theorem lt_pieces_iff (L m k : Nat) (hm : 0 < m) :
    k < (L + m - 1) / m ↔ k * m < L := by
  rw [show (k < (L + m - 1) / m ↔ k + 1 ≤ (L + m - 1) / m) from Iff.rfl,
    Nat.le_div_iff_mul_le hm, Nat.succ_mul]
  omega

theorem lookup_range_map {β : Type} (start j k : Nat) (val : Nat → β) (hk : k < j) :
    ((List.range j).map (fun i => (start + i, val i))).lookup (start + k)
      = some (val k) := by
  induction j with
  | zero => omega
  | succ j ih =>
    rw [List.range_succ, List.map_append]
    rw [lookup_append]
    rcases Nat.lt_or_ge k j with h | h
    · rw [ih h]; rfl
    · have hkj : k = j := by omega
      subst hkj
      have hnone : ((List.range k).map (fun i => (start + i, val i))).lookup (start + k)
          = none := by
        apply lookup_eq_none
        intro p hp
        simp only [List.mem_map, List.mem_range] at hp
        obtain ⟨i, hi, hpi⟩ := hp
        subst hpi
        simp only [ne_eq]
        omega
      rw [hnone]
      simp [List.lookup]

theorem translate_loop_state (s : SequenceSource) (seq : List Char) (m : Nat)
    (hm : 0 < m)
    (hfresh : ∀ id, s.next_id ≤ id → s.nodes.lookup id = none) :
    ∀ j, j ≤ (seq.length + m - 1) / m →
      (List.range j).foldl (SequenceSource.translate_piece seq s.next_id m) s =
        { nodes := s.nodes ++ (List.range j).map (fun k =>
            (s.next_id + k, s.sequences.length + k * m, min m (seq.length - k * m)))
          sequences := s.sequences ++ seq.take (min (j * m) seq.length)
          segment_translation := s.segment_translation
          next_id := s.next_id } := by
  intro j hj
  induction j with
  | zero =>
    cases s
    simp
  | succ j ih =>
    have hjlt : j < (seq.length + m - 1) / m := by omega
    have hjm : j * m < seq.length := (lt_pieces_iff seq.length m j hm).mp hjlt
    have hstate := ih (by omega)
    rw [List.range_succ, List.foldl_append, List.foldl_cons, List.foldl_nil, hstate]
    show SequenceSource.add_node_view _ _ _ = _
    have hminj : min (j * m) seq.length = j * m := by omega
    have hlen : min m (seq.length - j * m) ≠ 0 := by omega
    have hlook :
        ((s.nodes ++ (List.range j).map (fun k =>
            (s.next_id + k, s.sequences.length + k * m,
              min m (seq.length - k * m)))).lookup (s.next_id + j)) = none := by
      rw [lookup_append, hfresh (s.next_id + j) (by omega)]
      apply lookup_eq_none
      intro p hp
      simp only [List.mem_map, List.mem_range] at hp
      obtain ⟨i, hi, hpi⟩ := hp
      subst hpi
      simp only [ne_eq]
      omega
    simp only [SequenceSource.add_node_view, hlen, if_false, hlook, Option.isSome_none,
      Bool.false_eq_true, if_false]
    simp only [SequenceSource.mk.injEq]
    refine ⟨?_, ?_, trivial, trivial⟩
    · have hofflen : (s.sequences ++ List.take (j * m ⊓ seq.length) seq).length
          = s.sequences.length + j * m := by
        rw [List.length_append, List.length_take]
        omega
      rw [hofflen, List.map_append, List.map_cons, List.map_nil, List.append_assoc]
    · rw [List.append_assoc]
      congr 1
      rw [hminj, ← List.take_add]
      congr 1
      rw [Nat.succ_mul]
      omega

/-- C9: translating a not-yet-translated segment name with a non-empty
sequence of length `L` and chopping limit `m > 0` appends exactly
`⌈L/m⌉ = (L + m - 1) / m` new nodes with consecutive ids starting at the
current `next_id`, appends the whole segment to the sequence buffer so that
the new nodes' stored sequences are the consecutive pieces of length `m`
(with a possibly shorter last piece), records
`segment_translation[name] = [next_id, next_id + ⌈L/m⌉)`, and advances
`next_id` to the end of that range.  The freshness hypothesis `hfresh` is the
allocator's invariant: ids at or above `next_id` are unused. -/
theorem translate_segment_spec (s : SequenceSource) (name : String)
    (sequence : List Char) (m : Nat)
    (hname : s.segment_translation.lookup name = none)
    (hL : 0 < sequence.length) (hm : 0 < m)
    (hfresh : ∀ id, s.next_id ≤ id → s.nodes.lookup id = none) :
    (s.translate_segment name sequence m).next_id
        = s.next_id + (sequence.length + m - 1) / m ∧
    (s.translate_segment name sequence m).segment_translation
        = s.segment_translation
            ++ [(name, s.next_id, s.next_id + (sequence.length + m - 1) / m)] ∧
    (s.translate_segment name sequence m).sequences = s.sequences ++ sequence ∧
    (s.translate_segment name sequence m).nodes
        = s.nodes ++ (List.range ((sequence.length + m - 1) / m)).map (fun k =>
            (s.next_id + k, s.sequences.length + k * m,
              min m (sequence.length - k * m))) ∧
    (∀ k, k < (sequence.length + m - 1) / m →
      (s.translate_segment name sequence m).node_sequence (s.next_id + k)
        = some ((sequence.drop (k * m)).take m)) := by
  have hP : 0 < (sequence.length + m - 1) / m := by
    rw [show (0 < (sequence.length + m - 1) / m ↔ 0 * m < sequence.length) from
      lt_pieces_iff sequence.length m 0 hm]
    omega
  have hcond : (s.segment_translation.lookup name).isSome = false ∧
      ¬ sequence.length = 0 := by
    constructor
    · rw [hname]; rfl
    · omega
  have hstate := translate_loop_state s sequence m hm hfresh
      ((sequence.length + m - 1) / m) (Nat.le_refl _)
  have hlimit : s.next_id + (sequence.length + m - 1) / m - s.next_id
      = (sequence.length + m - 1) / m := by omega
  have hbody : s.translate_segment name sequence m =
      { nodes := s.nodes ++ (List.range ((sequence.length + m - 1) / m)).map (fun k =>
          (s.next_id + k, s.sequences.length + k * m,
            min m (sequence.length - k * m)))
        sequences := s.sequences ++ sequence
        segment_translation := s.segment_translation
            ++ [(name, s.next_id, s.next_id + (sequence.length + m - 1) / m)]
        next_id := s.next_id + (sequence.length + m - 1) / m } := by
    unfold SequenceSource.translate_segment
    rw [if_neg (by simp [hcond.1, hcond.2])]
    simp only [hlimit, hstate]
    have hfull : min ((sequence.length + m - 1) / m * m) sequence.length
        = sequence.length := by
      have := (lt_pieces_iff sequence.length m ((sequence.length + m - 1) / m) hm)
      omega
    rw [hfull, List.take_length]
  refine ⟨by rw [hbody], by rw [hbody], by rw [hbody], by rw [hbody], ?_⟩
  intro k hk
  have hkm : k * m < sequence.length := (lt_pieces_iff sequence.length m k hm).mp hk
  rw [hbody]
  unfold SequenceSource.node_sequence
  have hlook : ((s.nodes ++ (List.range ((sequence.length + m - 1) / m)).map (fun i =>
      (s.next_id + i, s.sequences.length + i * m,
        min m (sequence.length - i * m)))).lookup (s.next_id + k))
      = some (s.sequences.length + k * m, min m (sequence.length - k * m)) := by
    rw [lookup_append, hfresh (s.next_id + k) (by omega)]
    rw [lookup_range_map s.next_id _ k _ hk]
    rfl
  rw [hlook]
  have hdrop : (s.sequences ++ sequence).drop (s.sequences.length + k * m)
      = sequence.drop (k * m) := by
    rw [List.drop_append]
  simp only [Option.map_some']
  rw [hdrop]
  congr 1
  have hrest : (sequence.drop (k * m)).length = sequence.length - k * m :=
    List.length_drop _ _
  rcases Nat.le_total m (sequence.length - k * m) with h | h
  · rw [min_eq_left h]
  · rw [min_eq_right h]
    rw [← hrest, List.take_length, List.take_of_length_le (by omega)]

/-- Witness for C9: a fresh source, segment `"seg"` of length 5, chopping
limit 2, giving `⌈5/2⌉ = 3` nodes. -/
theorem translate_segment_spec_witness :
    (SequenceSource.mk [] [] [] 1).segment_translation.lookup "seg" = none ∧
    0 < (['A', 'C', 'G', 'T', 'A'] : List Char).length ∧ 0 < 2 ∧
    ((SequenceSource.mk [] [] [] 1).translate_segment "seg"
        ['A', 'C', 'G', 'T', 'A'] 2).next_id
      = 1 + ((['A', 'C', 'G', 'T', 'A'] : List Char).length + 2 - 1) / 2 :=
  ⟨rfl, by decide, by decide,
    (translate_segment_spec (SequenceSource.mk [] [] [] 1) "seg"
      ['A', 'C', 'G', 'T', 'A'] 2 rfl (by decide) (by decide)
      (fun _ _ => rfl)).1⟩

/-! ## GBZ container: header and tags (`gbz.h` lines 66-89, `gbz.cpp`)

The claims C3 and C4 concern the header check and the tag handling of the
container.  The GBWT index and the graph payload are delegated to external
libraries (spec §1, §4.8: "delegated") and are not part of the model; a load
is therefore represented by the header and the tag mapping read from the
stream. -/

def Version.SOURCE_KEY : String := "source"

def Version.SOURCE_VALUE : String := "jltsiren/gbwtgraph"

/-- Modelled from the spec: `Version::GBZ_VERSION` is declared in `utils.h`,
which is not among the provided sources.  The spec (§6) fixes the current GBZ
container version to `1`. -/
def Version.GBZ_VERSION : Nat := 1

structure GBZ.Header where
  tag : Nat
  version : Nat
  flags : Nat
deriving DecidableEq, Repr

def GBZ.Header.TAG : Nat := 0x205A4247

def GBZ.Header.VERSION : Nat := Version.GBZ_VERSION

def GBZ.Header.FLAG_MASK : Nat := 0x0000

/-- Embeds `GBZ::Header::check` (`gbz.cpp` lines 53-78): fatal if the tag
differs from `TAG`; fatal if the version differs from `VERSION`; then compute
the mask with a `switch` on the version (only `case VERSION` sets it to
`FLAG_MASK`, the mask stays `0` otherwise) and fatal if
`(flags & mask) != flags`.  `true` means the check passes; `false` means
`ABSL_LOG(FATAL)` terminates the load. -/
def GBZ.Header.check (h : GBZ.Header) : Bool :=
  if h.tag ≠ GBZ.Header.TAG then false
  else if h.version ≠ GBZ.Header.VERSION then false
  else
    let mask : Nat := if h.version = GBZ.Header.VERSION then GBZ.Header.FLAG_MASK else 0
    h.flags &&& mask == h.flags

/-- Modelled from the spec: `gbwt::Tags` comes from the external GBWT library.
The spec (§3, §9) describes it as a string → string mapping whose `set`
operation overwrites any previous value of the key and whose `clear` empties
the mapping. -/
structure Tags where
  entries : List (String × String) := []
deriving DecidableEq, Repr

def Tags.set (t : Tags) (k v : String) : Tags :=
  ⟨t.entries.filter (fun e => e.1 != k) ++ [(k, v)]⟩

def Tags.get (t : Tags) (k : String) : Option String :=
  (t.entries.find? (fun e => e.1 == k)).map (fun e => e.2)

def Tags.clear (_ : Tags) : Tags := ⟨[]⟩

structure GBZ where
  header : GBZ.Header := ⟨GBZ.Header.TAG, GBZ.Header.VERSION, 0⟩
  tags : Tags := ⟨[]⟩
deriving DecidableEq, Repr

/-- Embeds `GBZ::add_source` (`gbz.cpp` lines 177-183):
`tags.set(Version::SOURCE_KEY, Version::SOURCE_VALUE)`. -/
def GBZ.add_source (g : GBZ) : GBZ :=
  { g with tags := g.tags.set Version.SOURCE_KEY Version.SOURCE_VALUE }

/-- The header and tags read from a serialized GBZ stream.  The GBWT and the
graph that follow them in the stream are delegated payloads (spec §4.8) and
are outside the model. -/
structure GBZStream where
  header : GBZ.Header
  tags : Tags
deriving DecidableEq, Repr

/-- Embeds `GBZ::simple_sds_load` (`gbz.cpp` lines 269-284): load the header
and `check()` it (a failed check is fatal, modelled as `.error`), then load
the tags and overwrite the source tag with `add_source()`.  The delegated
GBWT/graph loads are not modelled. -/
def GBZ.simple_sds_load (s : GBZStream) : Except String GBZ :=
  if GBZ.Header.check s.header then
    .ok (GBZ.add_source { header := s.header, tags := s.tags })
  else .error "GBZ: invalid header"

/-- Embeds `GBZ::load_from_files` (`gbz.cpp` lines 306-315): clear the tags,
run `add_source()`, then load the GBWT and the graph from the two files
(delegated payloads, not modelled — neither file carries tags). -/
def GBZ.load_from_files (g : GBZ) : GBZ :=
  GBZ.add_source { g with tags := Tags.clear g.tags }

/-- C3: the header check passes exactly when the 4-byte magic is
`0x205A4247` (`"GBZ "`), the version is the current version `1`, and the
8-byte flag word has no bit outside the flag mask `0x0000` (i.e. it is zero);
and the modelled stream load succeeds exactly when the header check passes. -/
theorem gbz_header_check_iff (h : GBZ.Header) (s : GBZStream) :
    (GBZ.Header.check h = true ↔ (h.tag = 0x205A4247 ∧ h.version = 1 ∧ h.flags = 0)) ∧
    ((GBZ.simple_sds_load s).isOk = true ↔ GBZ.Header.check s.header = true) := by
  constructor
  · constructor
    · intro hc
      unfold GBZ.Header.check at hc
      by_cases htag : h.tag = 0x205A4247
      · by_cases hver : h.version = 1
        · rw [if_neg (by simp [htag, GBZ.Header.TAG]),
            if_neg (by simp [hver, GBZ.Header.VERSION, Version.GBZ_VERSION])] at hc
          refine ⟨htag, hver, ?_⟩
          have hms : (if h.version = GBZ.Header.VERSION then GBZ.Header.FLAG_MASK
              else 0) = 0 := by
            simp [GBZ.Header.FLAG_MASK]
          rw [hms] at hc
          have h0 : (0 == h.flags) = true := by
            simpa using hc
          have h1 : (0 : Nat) = h.flags := beq_iff_eq.mp h0
          omega
        · rw [if_neg (by simp [htag, GBZ.Header.TAG]),
            if_pos (by simp [hver, GBZ.Header.VERSION, Version.GBZ_VERSION])] at hc
          exact absurd hc (by simp)
      · rw [if_pos (by simp [htag, GBZ.Header.TAG])] at hc
        exact absurd hc (by simp)
    · rintro ⟨htag, hver, hflags⟩
      unfold GBZ.Header.check
      rw [if_neg (by simp [htag, GBZ.Header.TAG]),
        if_neg (by simp [hver, GBZ.Header.VERSION, Version.GBZ_VERSION])]
      simp [hflags, GBZ.Header.FLAG_MASK]
  · unfold GBZ.simple_sds_load
    by_cases hc : GBZ.Header.check s.header = true
    · simp [hc, Except.isOk, Except.toBool]
    · simp only [Bool.not_eq_true] at hc
      simp [hc, Except.isOk, Except.toBool]

theorem tags_get_set (t : Tags) (k v : String) : (t.set k v).get k = some v := by
  unfold Tags.set Tags.get
  induction t.entries with
  | nil => simp [List.find?]
  | cons e l ih =>
    by_cases he : e.1 = k
    · have hee : (e.1 != k) = false := by simp [he]
      simp only [List.filter_cons, hee, if_false]
      exact ih
    · have hne : (e.1 != k) = true := by simp [he]
      have hne2 : (e.1 == k) = false := by simp [he]
      simp only [List.filter_cons, hne, if_true]
      rw [List.cons_append]
      simp only [List.find?, hne2]
      exact ih

/-- C4: after either load, the tag mapping maps `"source"` to
`"jltsiren/gbwtgraph"`, whatever the stream contained — the entry is added
when absent and overwritten otherwise. -/
theorem gbz_load_sets_source_tag :
    (∀ (s : GBZStream) (g : GBZ), GBZ.simple_sds_load s = .ok g →
        g.tags.get "source" = some "jltsiren/gbwtgraph") ∧
    (∀ g : GBZ, (GBZ.load_from_files g).tags.get "source"
        = some "jltsiren/gbwtgraph") := by
  constructor
  · intro s g hload
    unfold GBZ.simple_sds_load at hload
    by_cases hc : GBZ.Header.check s.header = true
    · rw [if_pos hc] at hload
      cases hload
      exact tags_get_set s.tags "source" "jltsiren/gbwtgraph"
    · rw [if_neg hc] at hload
      cases hload
  · intro g
    exact tags_get_set (Tags.clear g.tags) "source" "jltsiren/gbwtgraph"

/-- Witness for C4: a stream whose tags already bind `"source"` to another
value; after loading, the binding is `"jltsiren/gbwtgraph"`. -/
theorem gbz_load_sets_source_tag_witness :
    GBZ.simple_sds_load ⟨⟨0x205A4247, 1, 0⟩, ⟨[("source", "elsewhere")]⟩⟩
        = .ok (GBZ.add_source
            { header := ⟨0x205A4247, 1, 0⟩, tags := ⟨[("source", "elsewhere")]⟩ }) ∧
      (GBZ.add_source
          { header := ⟨0x205A4247, 1, 0⟩,
            tags := ⟨[("source", "elsewhere")]⟩ }).tags.get "source"
        = some "jltsiren/gbwtgraph" :=
  ⟨rfl, gbz_load_sets_source_tag.1
    ⟨⟨0x205A4247, 1, 0⟩, ⟨[("source", "elsewhere")]⟩⟩ _ rfl⟩

/-! ## The `subgraph_query` tool (`subgraph_query.cpp`)

The option arguments are modelled as already parsed (`std::stoul` failures
throw `std::logic_error` descendants, which `main` does not catch, so they
terminate the process; they are outside the claim).  `ABSL_LOG(FATAL)` aborts
the process with `SIGABRT`, whose conventional shell exit status is 134; we
use that value for the fatal paths.  The delegated load of the GBZ file is
represented by its outcome. -/

def REFERENCE_PATH_SAMPLE_NAME : String := "_gbwt_ref"

inductive QueryType
  | invalid_query
  | path_offset_query
  | path_interval_query
  | node_query
deriving DecidableEq, Repr

inductive HaplotypeOutput
  | all_haplotypes
  | distinct_haplotypes
  | reference_only
deriving DecidableEq, Repr

inductive CLIOption
  | sample (name : String)
  | contig (name : String)
  | offset (n : Nat)
  | interval (m n : Nat)
  | node (n : Nat)
  | context (n : Nat)
  | distinct
  | reference_only
deriving DecidableEq, Repr

structure Config where
  query_type : QueryType := .invalid_query
  haplotype_output : HaplotypeOutput := .all_haplotypes
  sample_name : String := REFERENCE_PATH_SAMPLE_NAME
  contig_name : String := ""
  offset : Nat := 0
  limit : Nat := 0
  node_id : Nat := 0
  context : Nat := 100
deriving DecidableEq, Repr

/-- One arm of the `getopt_long` switch in `Config::Config`
(`subgraph_query.cpp` lines 161-208).  Each of `--offset`, `--interval` and
`--node` overwrites `query_type`, so the one processed last wins. -/
def Config.process (c : Config) : CLIOption → Config
  | .sample name => { c with sample_name := name }
  | .contig name => { c with contig_name := name }
  | .offset n => { c with query_type := .path_offset_query, offset := n }
  | .interval m n => { c with query_type := .path_interval_query, offset := m, limit := n }
  | .node n => { c with query_type := .node_query, node_id := n }
  | .context n => { c with context := n }
  | .distinct => { c with haplotype_output := .distinct_haplotypes }
  | .reference_only => { c with haplotype_output := .reference_only }

def Config.ofOptions (opts : List CLIOption) : Config :=
  opts.foldl Config.process {}

/-- The sanity checks at the end of `Config::Config` (`subgraph_query.cpp`
lines 211-226), in source order: missing graph file, missing query type,
missing contig name for a path query.  Each failure is `ABSL_LOG(FATAL)`. -/
def Config.make (opts : List CLIOption) (has_graph_arg : Bool) : Except String Config :=
  let c := Config.ofOptions opts
  if ¬ has_graph_arg then .error "Missing graph file"
  else if c.query_type = .invalid_query then
    .error "Path offset or interval or node id is required"
  else if (c.query_type = .path_offset_query ∨ c.query_type = .path_interval_query)
      ∧ c.contig_name = "" then
    .error "Contig name is required for path offset or interval"
  else .ok c

inductive LoadOutcome
  | success
  | runtime_error (msg : String)
deriving DecidableEq, Repr

structure MainResult where
  exit_code : Nat
  stderr_messages : List String
deriving DecidableEq, Repr

/-- Embeds `main` (`subgraph_query.cpp` lines 78-105).  A fatal error in
`Config::Config` aborts (exit 134).  With a valid config, the body loads the
GBZ; a thrown `std::runtime_error` is caught by the `catch` block, which
prints `"subgraph_query: " << ""` to stderr (the exception's message is
dropped in the source) and then falls through to the final `return 0` — so a
failed load exits with status 0.  Query-construction failures after a
successful load are `ABSL_LOG(FATAL)` aborts and are outside this model. -/
def subgraph_query_main (opts : List CLIOption) (has_graph_arg : Bool)
    (load : LoadOutcome) : MainResult :=
  match Config.make opts has_graph_arg with
  | .error msg => ⟨134, [msg]⟩
  | .ok _ =>
    match load with
    | .success => ⟨0, []⟩
    | .runtime_error _ => ⟨0, ["subgraph_query: "]⟩

/-- C2 is wrong about the exit status: when loading the graph file throws a
`std::runtime_error` (e.g. the file cannot be opened), `main` catches it,
prints `"subgraph_query: "` (with an empty message) to stderr, and returns
exit status 0 — not non-zero as the claim and the spec require.  The
last-one-wins behaviour of the mutually exclusive query flags does hold, as
the remaining conjuncts show, and a valid run also returns 0. -/
theorem subgraph_query_exit_status :
    subgraph_query_main [.node 1] true (.runtime_error "cannot open file")
        = ⟨0, ["subgraph_query: "]⟩ ∧
    subgraph_query_main [.node 1] true .success = ⟨0, []⟩ ∧
    (Config.ofOptions [.offset 3, .interval 1 2, .node 7]).query_type = .node_query ∧
    (Config.ofOptions [.node 7, .interval 1 2, .offset 3]).query_type
        = .path_offset_query ∧
    (Config.ofOptions [.node 7, .offset 3, .contig "c", .interval 1 2]).query_type
        = .path_interval_query := by
  refine ⟨rfl, rfl, rfl, rfl, rfl⟩

/-! ## Handle graphs

The algorithms in `algorithms.cpp` are written against the abstract
`HandleGraph` interface.  A handle is a `(node id, orientation)` pair
(spec §3); the graph is modelled by its observable behaviour:
`node_ids` is the id sequence produced by `for_each_handle` (which visits the
forward handle of every node), `has_node` is the membership test,
`succs h` is the list of handles visited by `follow_edges(h, false, ·)` and
`preds h` the list visited by `follow_edges(h, true, ·)`;
`get_degree(h, true)` is `(preds h).length` and `get_handle(n, o)` is
`⟨n, o⟩`. -/

structure Handle where
  id : Nat
  is_rev : Bool
deriving DecidableEq, Repr

structure HandleGraphM where
  node_ids : List Nat
  min_node_id : Nat
  max_node_id : Nat
  has_node : Nat → Bool
  succs : Handle → List Handle
  preds : Handle → List Handle

/-! ## Disjoint sets and weakly connected components (`algorithms.cpp` 14-106) -/

/-- Embeds the `DisjointSets` structure (`algorithms.cpp` lines 14-72):
union-find with path splitting and union by rank over the slots
`[0, n)`, slot `i` holding node `offset + i`. -/
structure DisjointSets where
  parent : List Nat
  rank : List Nat
  offset : Nat
deriving Repr

def DisjointSets.size (d : DisjointSets) : Nat := d.parent.length

/-- The constructor (`algorithms.cpp` lines 20-24): `parent` is filled with
`0` and then overwritten with the identity, `rank` with zeroes. -/
def DisjointSets.init (n : Nat) (offset : Nat) : DisjointSets :=
  ⟨List.range n, List.replicate n 0, offset⟩

/-- The `while` loop of `DisjointSets::find` (`algorithms.cpp` lines 34-44),
with path splitting: while `parent[element] ≠ element`, rewrite
`parent[element]` to the grandparent and step to the old parent.  The loop is
given fuel; for every state the C++ can reach the parent chains are acyclic
and `size + 1` steps suffice (an out-of-range index, undefined behaviour in
C++, reads as a self-parent here).  None of the verified conclusions depend
on the returned root. -/
def DisjointSets.findLoop : Nat → DisjointSets → Nat → DisjointSets × Nat
  | 0, d, element => (d, element)
  | fuel + 1, d, element =>
    let p := d.parent.getD element element
    if p = element then (d, element)
    else
      let gp := d.parent.getD p p
      DisjointSets.findLoop fuel { d with parent := d.parent.set element gp } p

def DisjointSets.find (d : DisjointSets) (node : Nat) : DisjointSets × Nat :=
  DisjointSets.findLoop (d.size + 1) d (node - d.offset)

/-- Embeds `DisjointSets::set_union` (`algorithms.cpp` lines 46-53). -/
def DisjointSets.set_union (d : DisjointSets) (node_a node_b : Nat) : DisjointSets :=
  let fa := d.find node_a
  let fb := fa.1.find node_b
  let d2 := fb.1
  let a := fa.2
  let b := fb.2
  if a = b then d2
  else
    let ab := if d2.rank.getD a 0 < d2.rank.getD b 0 then (b, a) else (a, b)
    let d3 := { d2 with parent := d2.parent.set ab.2 ab.1 }
    if d3.rank.getD ab.2 0 = d3.rank.getD ab.1 0 then
      { d3 with rank := d3.rank.set ab.1 (d3.rank.getD ab.1 0 + 1) }
    else d3

/-- The loop body of `DisjointSets::sets` (`algorithms.cpp` lines 55-71):
walk the ids in ascending order, skip the ids the predicate rejects, find the
root (mutating the structure through path splitting), open a new result
bucket on a root's first appearance, and append the id to its root's
bucket. -/
def DisjointSets.setsLoop (include_node : Nat → Bool) :
    List Nat → DisjointSets → List (List Nat) → List (Nat × Nat) →
      DisjointSets × List (List Nat)
  | [], d, result, _ => (d, result)
  | node :: rest, d, result, root_to_set =>
    if include_node node then
      let fr := d.find node
      match root_to_set.lookup fr.2 with
      | some idx =>
        DisjointSets.setsLoop include_node rest fr.1
          (result.set idx (result.getD idx [] ++ [node])) root_to_set
      | none =>
        DisjointSets.setsLoop include_node rest fr.1
          (result ++ [[node]]) (root_to_set ++ [(fr.2, result.length)])
    else DisjointSets.setsLoop include_node rest d result root_to_set

def DisjointSets.sets (d : DisjointSets) (include_node : Nat → Bool) :
    List (List Nat) :=
  (DisjointSets.setsLoop include_node
    ((List.range d.size).map (fun i => d.offset + i)) d [] []).2

/-- Fuel bound for the DFS stack loop of `weakly_connected_components`: one
initial push per node plus, for each node, the degrees of both its handles.
Each node is marked found at most once, and only a newly found node's edges
are pushed, so the number of stack pops in an inner loop never exceeds this
bound.  The verified conclusions of C7 are independent of the union-find
state, hence of the fuel. -/
def wccFuel (g : HandleGraphM) : Nat :=
  1 + (g.node_ids.map (fun n =>
    (g.succs ⟨n, false⟩).length + (g.preds ⟨n, false⟩).length +
    (g.succs ⟨n, true⟩).length + (g.preds ⟨n, true⟩).length + 1)).sum

/-- The inner DFS loop of `weakly_connected_components` (`algorithms.cpp`
lines 87-102): pop a handle; if its id is already found, continue; otherwise
mark it found and, for each neighbour over the edges in both directions
(`follow_edges` forward then backward), union the two ids and push the
neighbour. -/
def wccDfsLoop (g : HandleGraphM) (min_id : Nat) :
    Nat → List Handle → (Nat → Bool) → DisjointSets → (Nat → Bool) × DisjointSets
  | 0, _, found, comps => (found, comps)
  | _ + 1, [], found, comps => (found, comps)
  | fuel + 1, h :: stack, found, comps =>
    let id := h.id
    if found (id - min_id) then wccDfsLoop g min_id fuel stack found comps
    else
      let found' := fun x => if x = id - min_id then true else found x
      let nbrs := g.succs h ++ g.preds h
      let comps' := nbrs.foldl (fun c next => c.set_union id next.id) comps
      wccDfsLoop g min_id fuel (nbrs.reverse ++ stack) found' comps'

/-- Embeds `weakly_connected_components` (`algorithms.cpp` lines 76-106):
allocate the found array and the union-find over `[min_id, max_id]`, DFS from
every not-yet-found node that `for_each_handle` yields, and enumerate the
components with `sets`, keeping only ids with `has_node`. -/
def weakly_connected_components (g : HandleGraphM) : List (List Nat) :=
  let min_id := g.min_node_id
  let st := g.node_ids.foldl
    (fun (st : (Nat → Bool) × DisjointSets) n =>
      if st.1 (n - min_id) then st
      else wccDfsLoop g min_id (wccFuel g) [⟨n, false⟩] st.1 st.2)
    (fun _ => false, DisjointSets.init (g.max_node_id + 1 - min_id) min_id)
  st.2.sets g.has_node

/-! ## Construction jobs (`algorithms.cpp` lines 303-327) -/

structure ConstructionJobs where
  nodes_per_job : List Nat := []
  weakly_connected_components : List (List Nat) := []
  node_to_component : List (Nat × Nat) := []
  component_to_job : List (Nat × Nat) := []
deriving DecidableEq, Repr

def ConstructionJobs.size (j : ConstructionJobs) : Nat := j.nodes_per_job.length

def ConstructionJobs.components (j : ConstructionJobs) : Nat :=
  j.weakly_connected_components.length

/-- `unordered_map` assignment `m[k] = v`: overwrite any existing binding. -/
def assocSet (l : List (Nat × Nat)) (k v : Nat) : List (Nat × Nat) :=
  l.filter (fun p => p.1 != k) ++ [(k, v)]

/-- The body of the loop over components in `gbwt_construction_jobs`
(`algorithms.cpp` lines 314-324): start a new job if there is none yet or if
the last job's node count plus this component's size exceeds the bound; add
the component's size to the last job; map the component's nodes to the
component and the component to the last job. -/
def construction_jobs_step (size_bound : Nat) (jobs : ConstructionJobs)
    (i : Nat) (component : List Nat) : ConstructionJobs :=
  let npj :=
    if jobs.nodes_per_job = [] ∨ jobs.nodes_per_job.getLastD 0 + component.length > size_bound
    then jobs.nodes_per_job ++ [0] else jobs.nodes_per_job
  let npj2 := npj.dropLast ++ [npj.getLastD 0 + component.length]
  { jobs with
    nodes_per_job := npj2
    node_to_component := component.foldl (fun m n => assocSet m n i) jobs.node_to_component
    component_to_job := assocSet jobs.component_to_job i (npj2.length - 1) }

/-- The loop `for(i = 0; i < components; i++)` of `gbwt_construction_jobs`,
processing the remaining components `cs` starting at component index `i`. -/
def construction_jobs_go (size_bound : Nat) :
    ConstructionJobs → Nat → List (List Nat) → ConstructionJobs
  | jobs, _, [] => jobs
  | jobs, i, c :: cs =>
    construction_jobs_go size_bound (construction_jobs_step size_bound jobs i c) (i + 1) cs

/-- The loop of `gbwt_construction_jobs` over an arbitrary ordered component
list, from the initial state that holds the components. -/
def construction_jobs_fold (comps : List (List Nat)) (size_bound : Nat) :
    ConstructionJobs :=
  construction_jobs_go size_bound { weakly_connected_components := comps } 0 comps

/-- Embeds `gbwt_construction_jobs` (`algorithms.cpp` lines 303-327): bin the
weakly connected components, in order, into jobs. -/
def gbwt_construction_jobs (g : HandleGraphM) (size_bound : Nat) : ConstructionJobs :=
  construction_jobs_fold (weakly_connected_components g) size_bound

/-! ### C8: binning components into construction jobs -/

theorem construction_jobs_go_append (B : Nat) (l₁ l₂ : List (List Nat)) :
    ∀ (jobs : ConstructionJobs) (i : Nat),
      construction_jobs_go B jobs i (l₁ ++ l₂)
        = construction_jobs_go B (construction_jobs_go B jobs i l₁) (i + l₁.length) l₂ := by
  induction l₁ with
  | nil => intro jobs i; simp [construction_jobs_go]
  | cons c cs ih =>
    intro jobs i
    have harith : i + (c :: cs).length = i + 1 + cs.length := by
      rw [List.length_cons]
      omega
    rw [List.cons_append]
    show construction_jobs_go B (construction_jobs_step B jobs i c) (i + 1) (cs ++ l₂)
        = construction_jobs_go B
            (construction_jobs_go B (construction_jobs_step B jobs i c) (i + 1) cs)
            (i + (c :: cs).length) l₂
    rw [ih, harith]

/-- The `nodes_per_job` update of the step, with the `let`s unfolded. -/
theorem construction_jobs_step_npj (B : Nat) (jobs : ConstructionJobs)
    (i : Nat) (c : List Nat) :
    (construction_jobs_step B jobs i c).nodes_per_job
      = (if jobs.nodes_per_job = [] ∨ jobs.nodes_per_job.getLastD 0 + c.length > B
         then jobs.nodes_per_job ++ [0] else jobs.nodes_per_job).dropLast
        ++ [(if jobs.nodes_per_job = [] ∨ jobs.nodes_per_job.getLastD 0 + c.length > B
         then jobs.nodes_per_job ++ [0] else jobs.nodes_per_job).getLastD 0 + c.length] :=
  rfl

theorem construction_jobs_step_length (B : Nat) (jobs : ConstructionJobs)
    (i : Nat) (c : List Nat) :
    (construction_jobs_step B jobs i c).nodes_per_job.length
      = (if jobs.nodes_per_job = [] ∨ jobs.nodes_per_job.getLastD 0 + c.length > B
         then jobs.nodes_per_job.length + 1 else jobs.nodes_per_job.length) := by
  rw [construction_jobs_step_npj]
  by_cases hgrow : jobs.nodes_per_job = [] ∨ jobs.nodes_per_job.getLastD 0 + c.length > B
  · rw [if_pos hgrow, if_pos hgrow, List.dropLast_concat, List.length_append,
      List.length_singleton]
  · rw [if_neg hgrow, if_neg hgrow, List.length_append, List.length_dropLast,
      List.length_singleton]
    have hne : jobs.nodes_per_job ≠ [] := fun hnil => hgrow (Or.inl hnil)
    have hlen : 0 < jobs.nodes_per_job.length := List.length_pos.mpr hne
    omega

theorem construction_jobs_step_last (B : Nat) (jobs : ConstructionJobs)
    (i : Nat) (c : List Nat) :
    (construction_jobs_step B jobs i c).nodes_per_job.getLastD 0
      = (if jobs.nodes_per_job = [] ∨ jobs.nodes_per_job.getLastD 0 + c.length > B
         then 0 else jobs.nodes_per_job.getLastD 0) + c.length := by
  rw [construction_jobs_step_npj]
  by_cases hgrow : jobs.nodes_per_job = [] ∨ jobs.nodes_per_job.getLastD 0 + c.length > B
  · rw [if_pos hgrow, List.getLastD_concat, List.getLastD_concat, if_pos hgrow]
  · rw [if_neg hgrow, List.getLastD_concat, if_neg hgrow]

theorem construction_jobs_step_ctj (B : Nat) (jobs : ConstructionJobs)
    (i : Nat) (c : List Nat)
    (hkeys : ∀ p ∈ jobs.component_to_job, p.1 ≠ i) :
    (construction_jobs_step B jobs i c).component_to_job
      = jobs.component_to_job
          ++ [(i, (construction_jobs_step B jobs i c).nodes_per_job.length - 1)] := by
  have hfilter : jobs.component_to_job.filter (fun p => p.1 != i)
      = jobs.component_to_job := by
    apply List.filter_eq_self.mpr
    intro p hp
    simp [hkeys p hp]
  show jobs.component_to_job.filter (fun p => p.1 != i)
      ++ [(i, (construction_jobs_step B jobs i c).nodes_per_job.length - 1)]
    = jobs.component_to_job
      ++ [(i, (construction_jobs_step B jobs i c).nodes_per_job.length - 1)]
  rw [hfilter]

/-- The loop invariant of `gbwt_construction_jobs` after the components with
indices `< i0` have been processed. -/
structure JobsInv (jobs : ConstructionJobs) (i0 : Nat) : Prop where
  keys_lt : ∀ p ∈ jobs.component_to_job, p.1 < i0
  job_lt : ∀ k, k < i0 → ∃ j, jobs.component_to_job.lookup k = some j
      ∧ j + 1 ≤ jobs.nodes_per_job.length
  contig : ∀ k j j', k + 1 < i0 → jobs.component_to_job.lookup k = some j →
      jobs.component_to_job.lookup (k + 1) = some j' → j' = j ∨ j' = j + 1
  first_zero : 0 < i0 → jobs.component_to_job.lookup 0 = some 0
  last_job : 0 < i0 → jobs.component_to_job.lookup (i0 - 1)
      = some (jobs.nodes_per_job.length - 1)
  empty_start : i0 = 0 → jobs.nodes_per_job = []

theorem construction_jobs_step_inv (B : Nat) (jobs : ConstructionJobs)
    (i0 : Nat) (c : List Nat) (hinv : JobsInv jobs i0) :
    JobsInv (construction_jobs_step B jobs i0 c) (i0 + 1) := by
  have hkeys : ∀ p ∈ jobs.component_to_job, p.1 ≠ i0 := by
    intro p hp
    have := hinv.keys_lt p hp
    omega
  have hctj := construction_jobs_step_ctj B jobs i0 c hkeys
  have hlen := construction_jobs_step_length B jobs i0 c
  have hlen_pos : 0 < (construction_jobs_step B jobs i0 c).nodes_per_job.length := by
    rw [construction_jobs_step_npj, List.length_append, List.length_singleton]
    omega
  have hold_none : jobs.component_to_job.lookup i0 = none :=
    lookup_eq_none _ _ (fun p hp => hkeys p hp)
  have hnew_lookup : (construction_jobs_step B jobs i0 c).component_to_job.lookup i0
      = some ((construction_jobs_step B jobs i0 c).nodes_per_job.length - 1) := by
    rw [hctj, lookup_append, hold_none]
    simp [List.lookup]
  have hpres : ∀ k j, jobs.component_to_job.lookup k = some j →
      (construction_jobs_step B jobs i0 c).component_to_job.lookup k = some j := by
    intro k j hk
    rw [hctj, lookup_append, hk]
    rfl
  have hsize_mono : jobs.nodes_per_job.length
      ≤ (construction_jobs_step B jobs i0 c).nodes_per_job.length := by
    rw [hlen]
    by_cases hgrow : jobs.nodes_per_job = [] ∨ jobs.nodes_per_job.getLastD 0 + c.length > B
    · rw [if_pos hgrow]
      omega
    · rw [if_neg hgrow]
  refine ⟨?_, ?_, ?_, ?_, ?_, ?_⟩
  · intro p hp
    rw [hctj] at hp
    rcases List.mem_append.mp hp with h | h
    · have := hinv.keys_lt p h
      omega
    · simp only [List.mem_singleton] at h
      subst h
      omega
  · intro k hk
    rcases Nat.lt_or_ge k i0 with h | h
    · obtain ⟨j, hj, hjlt⟩ := hinv.job_lt k h
      exact ⟨j, hpres k j hj, by omega⟩
    · have hk0 : k = i0 := by omega
      subst hk0
      exact ⟨_, hnew_lookup, by omega⟩
  · intro k j j' hk hj hj'
    rcases Nat.lt_or_ge (k + 1) i0 with h | h
    · obtain ⟨j0, hj0, -⟩ := hinv.job_lt k (by omega)
      obtain ⟨j1, hj1, -⟩ := hinv.job_lt (k + 1) h
      have e0 : j = j0 := by
        have hthis := hpres k j0 hj0
        rw [hj] at hthis
        exact Option.some_inj.mp hthis
      have e1 : j' = j1 := by
        have hthis := hpres (k + 1) j1 hj1
        rw [hj'] at hthis
        exact Option.some_inj.mp hthis
      rw [e0, e1]
      exact hinv.contig k j0 j1 h hj0 hj1
    · have hk1 : k + 1 = i0 := by omega
      have hi0 : 0 < i0 := by omega
      have hlast := hinv.last_job hi0
      obtain ⟨j0, hj0, hjlt⟩ := hinv.job_lt (i0 - 1) (by omega)
      have e0 : j = j0 := by
        have hthis := hpres (i0 - 1) j0 hj0
        rw [show i0 - 1 = k from by omega] at hthis
        rw [hj] at hthis
        exact Option.some_inj.mp hthis
      have hj0eq : j0 = jobs.nodes_per_job.length - 1 := by
        rw [hlast] at hj0
        exact (Option.some_inj.mp hj0).symm
      have e1 : j' = (construction_jobs_step B jobs i0 c).nodes_per_job.length - 1 := by
        rw [hk1] at hj'
        rw [hnew_lookup] at hj'
        exact (Option.some_inj.mp hj').symm
      rw [e0, hj0eq, e1, hlen]
      by_cases hgrow : jobs.nodes_per_job = [] ∨ jobs.nodes_per_job.getLastD 0 + c.length > B
      · rw [if_pos hgrow]
        right
        omega
      · rw [if_neg hgrow]
        left
        rfl
  · intro _
    rcases Nat.eq_zero_or_pos i0 with h0 | h0
    · subst h0
      have hnpj := hinv.empty_start rfl
      have hone : (construction_jobs_step B jobs 0 c).nodes_per_job.length = 1 := by
        rw [hlen, if_pos (Or.inl hnpj), hnpj]
        rfl
      rw [hnew_lookup, hone]
    · exact hpres 0 0 (hinv.first_zero h0)
  · intro _
    rw [show i0 + 1 - 1 = i0 from by omega]
    exact hnew_lookup
  · intro h
    omega

theorem construction_jobs_go_inv (B : Nat) :
    ∀ (cs : List (List Nat)) (jobs : ConstructionJobs) (i0 : Nat),
      JobsInv jobs i0 → JobsInv (construction_jobs_go B jobs i0 cs) (i0 + cs.length) := by
  intro cs
  induction cs with
  | nil => intro jobs i0 h; simpa [construction_jobs_go] using h
  | cons c rest ih =>
    intro jobs i0 h
    have h1 := construction_jobs_step_inv B jobs i0 c h
    have h2 := ih (construction_jobs_step B jobs i0 c) (i0 + 1) h1
    simp only [construction_jobs_go, List.length_cons]
    have : i0 + 1 + rest.length = i0 + (rest.length + 1) := by omega
    rw [← this]
    exact h2

theorem construction_jobs_inv_base (comps : List (List Nat)) :
    JobsInv { weakly_connected_components := comps } 0 :=
  ⟨fun p hp => absurd hp (List.not_mem_nil p),
   fun k hk => absurd hk (Nat.not_lt_zero k),
   fun k _ _ hk _ _ => absurd hk (Nat.not_lt_zero (k + 1)),
   fun h => absurd h (lt_irrefl 0),
   fun h => absurd h (lt_irrefl 0),
   fun _ => rfl⟩

/-- C8: binning the ordered components into jobs.  The first conjunct ties
`gbwt_construction_jobs` to the component-list fold.  The second is the step
characterization: component `i` is appended to the last existing job (the job
count stays the same) exactly when a job exists and its node count plus the
component's size is at most the bound, and otherwise a new job is started
whose count, after the step, is exactly the component's size.  The remaining
conjuncts give the invariants: `component_to_job i` is defined and smaller
than the number of jobs for every component `i`, component `0` goes to
job `0`, and consecutive components go to the same or to consecutive jobs —
so jobs cover contiguous component ranges. -/
theorem gbwt_construction_jobs_spec (comps : List (List Nat)) (B : Nat) :
    (∀ (g : HandleGraphM) (b : Nat), gbwt_construction_jobs g b
        = construction_jobs_fold (weakly_connected_components g) b) ∧
    (∀ i, (h : i < comps.length) →
      ((construction_jobs_go B { weakly_connected_components := comps } 0
            (comps.take (i + 1))).nodes_per_job.length
          = (construction_jobs_go B { weakly_connected_components := comps } 0
            (comps.take i)).nodes_per_job.length
        ↔ ((construction_jobs_go B { weakly_connected_components := comps } 0
              (comps.take i)).nodes_per_job ≠ [] ∧
            (construction_jobs_go B { weakly_connected_components := comps } 0
              (comps.take i)).nodes_per_job.getLastD 0 + (comps.get ⟨i, h⟩).length ≤ B)) ∧
      ((construction_jobs_go B { weakly_connected_components := comps } 0
            (comps.take (i + 1))).nodes_per_job.getLastD 0
          = (if (construction_jobs_go B { weakly_connected_components := comps } 0
                  (comps.take i)).nodes_per_job = [] ∨
                (construction_jobs_go B { weakly_connected_components := comps } 0
                  (comps.take i)).nodes_per_job.getLastD 0 + (comps.get ⟨i, h⟩).length > B
             then 0
             else (construction_jobs_go B { weakly_connected_components := comps } 0
                  (comps.take i)).nodes_per_job.getLastD 0) + (comps.get ⟨i, h⟩).length)) ∧
    (∀ i, i < comps.length → ∃ j,
      (construction_jobs_fold comps B).component_to_job.lookup i = some j ∧
        j < (construction_jobs_fold comps B).size) ∧
    (0 < comps.length →
      (construction_jobs_fold comps B).component_to_job.lookup 0 = some 0) ∧
    (∀ i j j', i + 1 < comps.length →
      (construction_jobs_fold comps B).component_to_job.lookup i = some j →
      (construction_jobs_fold comps B).component_to_job.lookup (i + 1) = some j' →
      j' = j ∨ j' = j + 1) := by
  have hfinal : JobsInv (construction_jobs_fold comps B) comps.length := by
    have := construction_jobs_go_inv B comps
      { weakly_connected_components := comps } 0 (construction_jobs_inv_base comps)
    simpa [construction_jobs_fold] using this
  refine ⟨fun g b => rfl, ?_, ?_, ?_, ?_⟩
  · intro i h
    have htake : comps.take (i + 1) = comps.take i ++ [comps.get ⟨i, h⟩] := by
      rw [← List.take_concat_get comps i h, List.concat_eq_append, List.get_eq_getElem]
    have hsplit : construction_jobs_go B { weakly_connected_components := comps } 0
        (comps.take (i + 1))
      = construction_jobs_step B
          (construction_jobs_go B { weakly_connected_components := comps } 0
            (comps.take i)) i (comps.get ⟨i, h⟩) := by
      rw [htake, construction_jobs_go_append]
      simp [construction_jobs_go, List.length_take, Nat.min_eq_left (Nat.le_of_lt h)]
    constructor
    · rw [hsplit, construction_jobs_step_length]
      by_cases hgrow : (construction_jobs_go B { weakly_connected_components := comps } 0
            (comps.take i)).nodes_per_job = [] ∨
          (construction_jobs_go B { weakly_connected_components := comps } 0
            (comps.take i)).nodes_per_job.getLastD 0 + (comps.get ⟨i, h⟩).length > B
      · simp only [hgrow, if_true]
        constructor
        · intro hle
          omega
        · intro hcase
          rcases hgrow with hg | hg
          · exact absurd hg hcase.1
          · omega
      · rw [if_neg hgrow]
        push_neg at hgrow
        exact ⟨fun _ => ⟨hgrow.1, hgrow.2⟩, fun _ => rfl⟩
    · rw [hsplit, construction_jobs_step_last]
  · intro i hi
    obtain ⟨j, hj, hjlt⟩ := hfinal.job_lt i hi
    exact ⟨j, hj, by simpa [ConstructionJobs.size] using hjlt⟩
  · intro h
    exact hfinal.first_zero h
  · intro i j j' hi hj hj'
    exact hfinal.contig i j j' hi hj hj'

/-- Witness for C8 at a concrete component list: components of sizes
2, 2, 1 with bound 3 give jobs `[2, 3]`, the second and third components
sharing the last job. -/
theorem gbwt_construction_jobs_spec_witness :
    (1 : Nat) < ([[1, 2], [3, 4], [5]] : List (List Nat)).length ∧
    ∃ j, (construction_jobs_fold [[1, 2], [3, 4], [5]] 3).component_to_job.lookup 1
        = some j ∧ j < (construction_jobs_fold [[1, 2], [3, 4], [5]] 3).size :=
  ⟨by decide, (gbwt_construction_jobs_spec [[1, 2], [3, 4], [5]] 3).2.2.1 1 (by decide)⟩

/-! ### C7: `weakly_connected_components` output shape

The claim concerns the partition and ordering of the output, all of which is
decided by `DisjointSets::sets`; the conclusions below are proved for an
arbitrary union-find state, so they hold whatever roots the DFS and the
union operations produced. -/

theorem lookup_mem {α β : Type} [BEq α] [LawfulBEq α] {l : List (α × β)} {k : α}
    {v : β} (h : l.lookup k = some v) : (k, v) ∈ l := by
  induction l with
  | nil => simp [List.lookup] at h
  | cons p t ih =>
    by_cases hk : (k == p.1) = true
    · have hk' : k = p.1 := by simpa using hk
      have hv : p.2 = v := by
        simp [List.lookup, hk] at h
        exact h
      exact List.mem_cons.mpr (Or.inl (by rw [hk', ← hv]))
    · have hk2 : (k == p.1) = false := by
        simp only [Bool.not_eq_true] at hk
        exact hk
      have ht : t.lookup k = some v := by
        simp only [List.lookup, hk2] at h
        exact h
      exact List.mem_cons_of_mem p (ih ht)

theorem headD_append_of_ne_nil {b : List Nat} (t : List Nat) (d : Nat) (h : b ≠ []) :
    (b ++ t).headD d = b.headD d := by
  cases b with
  | nil => exact absurd rfl h
  | cons y ys => rfl

theorem headD_mem {b : List Nat} (d : Nat) (h : b ≠ []) : b.headD d ∈ b := by
  cases b with
  | nil => exact absurd rfl h
  | cons y ys => exact List.mem_cons_self y ys

theorem headD_le_of_sorted {b : List Nat} (h : b.Pairwise (· < ·)) :
    ∀ y ∈ b, b.headD 0 ≤ y := by
  cases b with
  | nil => intro y hy; exact absurd hy (List.not_mem_nil y)
  | cons z zs =>
    intro y hy
    rcases List.mem_cons.mp hy with hz | hz
    · rw [hz]
      exact Nat.le_refl z
    · exact Nat.le_of_lt ((List.pairwise_cons.mp h).1 y hz)

theorem eq_take_cons_drop (r : List (List Nat)) (idx : Nat) (h : idx < r.length) :
    r = r.take idx ++ r.get ⟨idx, h⟩ :: r.drop (idx + 1) := by
  conv_lhs => rw [← List.take_append_drop idx r]
  congr 1
  rw [List.get_eq_getElem]
  exact (List.getElem_cons_drop r idx h).symm

theorem flatten_set_perm (r : List (List Nat)) (idx : Nat) (h : idx < r.length)
    (x : Nat) :
    ((r.set idx (r.get ⟨idx, h⟩ ++ [x])).flatten).Perm (r.flatten ++ [x]) := by
  have hset := List.set_eq_take_cons_drop (r.get ⟨idx, h⟩ ++ [x]) h
  rw [hset]
  conv_rhs => rw [eq_take_cons_drop r idx h]
  rw [List.flatten_append, List.flatten_cons, List.flatten_append, List.flatten_cons,
    List.append_assoc]
  conv_rhs => rw [List.append_assoc, List.append_assoc]
  apply List.Perm.append_left
  apply List.Perm.append_left
  exact List.perm_append_comm

/-! Preservation lemmas: none of `find`, `set_union`, or the DFS changes the
size or the offset of the union-find structure. -/

theorem findLoop_pres (fuel : Nat) :
    ∀ (d : DisjointSets) (e : Nat),
      (DisjointSets.findLoop fuel d e).1.parent.length = d.parent.length ∧
      (DisjointSets.findLoop fuel d e).1.offset = d.offset := by
  induction fuel with
  | zero => intro d e; exact ⟨rfl, rfl⟩
  | succ fuel ih =>
    intro d e
    simp only [DisjointSets.findLoop]
    split
    · exact ⟨rfl, rfl⟩
    · have hrec := ih
        ⟨d.parent.set e (d.parent.getD (d.parent.getD e e) (d.parent.getD e e)),
          d.rank, d.offset⟩
        (d.parent.getD e e)
      exact ⟨hrec.1.trans (List.length_set d.parent _ _), hrec.2⟩

theorem find_pres (d : DisjointSets) (node : Nat) :
    (d.find node).1.parent.length = d.parent.length ∧
    (d.find node).1.offset = d.offset :=
  findLoop_pres (d.size + 1) d (node - d.offset)

theorem set_union_pres (d : DisjointSets) (a b : Nat) :
    (d.set_union a b).parent.length = d.parent.length ∧
    (d.set_union a b).offset = d.offset := by
  have h1 := find_pres d a
  have h2 := find_pres (d.find a).1 b
  simp only [DisjointSets.set_union]
  split
  · exact ⟨h2.1.trans h1.1, h2.2.trans h1.2⟩
  · split
    · split
      · refine ⟨?_, h2.2.trans h1.2⟩
        show (((d.find a).1.find b).1.parent.set _ _).length = _
        rw [List.length_set]
        exact h2.1.trans h1.1
      · refine ⟨?_, h2.2.trans h1.2⟩
        show (((d.find a).1.find b).1.parent.set _ _).length = _
        rw [List.length_set]
        exact h2.1.trans h1.1
    · split
      · refine ⟨?_, h2.2.trans h1.2⟩
        show (((d.find a).1.find b).1.parent.set _ _).length = _
        rw [List.length_set]
        exact h2.1.trans h1.1
      · refine ⟨?_, h2.2.trans h1.2⟩
        show (((d.find a).1.find b).1.parent.set _ _).length = _
        rw [List.length_set]
        exact h2.1.trans h1.1

theorem union_foldl_pres (id : Nat) (nbrs : List Handle) :
    ∀ d : DisjointSets,
      (nbrs.foldl (fun c next => c.set_union id next.id) d).parent.length
          = d.parent.length ∧
      (nbrs.foldl (fun c next => c.set_union id next.id) d).offset = d.offset := by
  induction nbrs with
  | nil => intro d; exact ⟨rfl, rfl⟩
  | cons n rest ih =>
    intro d
    rw [List.foldl_cons]
    have h1 := set_union_pres d id n.id
    have h2 := ih (d.set_union id n.id)
    exact ⟨h2.1.trans h1.1, h2.2.trans h1.2⟩

theorem wccDfsLoop_pres (g : HandleGraphM) (min_id : Nat) (fuel : Nat) :
    ∀ (stack : List Handle) (found : Nat → Bool) (d : DisjointSets),
      (wccDfsLoop g min_id fuel stack found d).2.parent.length = d.parent.length ∧
      (wccDfsLoop g min_id fuel stack found d).2.offset = d.offset := by
  induction fuel with
  | zero => intro stack found d; exact ⟨rfl, rfl⟩
  | succ fuel ih =>
    intro stack found d
    cases stack with
    | nil => exact ⟨rfl, rfl⟩
    | cons h rest =>
      simp only [wccDfsLoop]
      split
      · exact ih rest found d
      · have h1 := union_foldl_pres h.id (g.succs h ++ g.preds h) d
        have h2 := ih ((g.succs h ++ g.preds h).reverse ++ rest)
          (fun x => if x = h.id - min_id then true else found x)
          ((g.succs h ++ g.preds h).foldl (fun c next => c.set_union h.id next.id) d)
        exact ⟨h2.1.trans h1.1, h2.2.trans h1.2⟩

theorem wcc_state_pres (g : HandleGraphM) :
    ∀ (ids : List Nat) (st : (Nat → Bool) × DisjointSets),
      (ids.foldl (fun (st : (Nat → Bool) × DisjointSets) n =>
        if st.1 (n - g.min_node_id) then st
        else wccDfsLoop g g.min_node_id (wccFuel g) [⟨n, false⟩] st.1 st.2) st).2.parent.length
        = st.2.parent.length ∧
      (ids.foldl (fun (st : (Nat → Bool) × DisjointSets) n =>
        if st.1 (n - g.min_node_id) then st
        else wccDfsLoop g g.min_node_id (wccFuel g) [⟨n, false⟩] st.1 st.2) st).2.offset
        = st.2.offset := by
  intro ids
  induction ids with
  | nil => intro st; exact ⟨rfl, rfl⟩
  | cons n rest ih =>
    intro st
    rw [List.foldl_cons]
    by_cases hf : st.1 (n - g.min_node_id) = true
    · rw [if_pos hf]
      exact ih st
    · rw [if_neg hf]
      have h1 := wccDfsLoop_pres g g.min_node_id (wccFuel g) [⟨n, false⟩] st.1 st.2
      have h2 := ih (wccDfsLoop g g.min_node_id (wccFuel g) [⟨n, false⟩] st.1 st.2)
      exact ⟨h2.1.trans h1.1, h2.2.trans h1.2⟩

/-- The invariant of the `sets` loop: over any sequence of ids that is
strictly ascending and larger than everything already bucketed, for any root
function, the loop keeps every bucket non-empty and strictly ascending, keeps
the buckets ordered by their head elements, and the buckets together hold
exactly the included ids (each once). -/
theorem setsLoop_spec (inc : Nat → Bool) :
    ∀ (L : List Nat) (d : DisjointSets) (r : List (List Nat)) (rts : List (Nat × Nat)),
      (∀ p ∈ rts, p.2 < r.length) →
      (∀ b ∈ r, b ≠ [] ∧ b.Pairwise (· < ·)) →
      (∀ b ∈ r, ∀ y ∈ b, ∀ x ∈ L, y < x) →
      L.Pairwise (· < ·) →
      r.Pairwise (fun b c => b.headD 0 < c.headD 0) →
      (∀ b ∈ (DisjointSets.setsLoop inc L d r rts).2, b ≠ [] ∧ b.Pairwise (· < ·)) ∧
      (DisjointSets.setsLoop inc L d r rts).2.Pairwise
        (fun b c => b.headD 0 < c.headD 0) ∧
      ((DisjointSets.setsLoop inc L d r rts).2.flatten).Perm
        (r.flatten ++ L.filter (fun x => inc x)) := by
  intro L
  induction L with
  | nil =>
    intro d r rts _ hr1 _ _ hheads
    refine ⟨hr1, hheads, ?_⟩
    simp [DisjointSets.setsLoop]
  | cons x rest ih =>
    intro d r rts hvals hr1 hfresh hL hheads
    have hLtail : rest.Pairwise (· < ·) := (List.pairwise_cons.mp hL).2
    have hLhead : ∀ z ∈ rest, x < z := (List.pairwise_cons.mp hL).1
    by_cases hx : inc x = true
    · rcases hlk : rts.lookup (d.find x).2 with _ | idx
      · -- new root: a fresh bucket [x] is appended
        have hstep : (DisjointSets.setsLoop inc (x :: rest) d r rts)
            = DisjointSets.setsLoop inc rest (d.find x).1 (r ++ [[x]])
                (rts ++ [((d.find x).2, r.length)]) := by
          simp [DisjointSets.setsLoop, hx, hlk]
        have hlen' : (r ++ [[x]]).length = r.length + 1 := by
          rw [List.length_append, List.length_singleton]
        have hvals' : ∀ p ∈ rts ++ [((d.find x).2, r.length)],
            p.2 < (r ++ [[x]]).length := by
          intro p hp
          rw [hlen']
          rcases List.mem_append.mp hp with h | h
          · have := hvals p h
            omega
          · simp only [List.mem_singleton] at h
            subst h
            omega
        have hmem' : ∀ b ∈ r ++ [[x]], b ∈ r ∨ b = [x] := by
          intro b hb
          rcases List.mem_append.mp hb with h | h
          · exact Or.inl h
          · simp only [List.mem_singleton] at h
            exact Or.inr h
        have hr1' : ∀ b ∈ r ++ [[x]], b ≠ [] ∧ b.Pairwise (· < ·) := by
          intro b hb
          rcases hmem' b hb with h | h
          · exact hr1 b h
          · subst h
            exact ⟨List.cons_ne_nil x [], List.pairwise_singleton _ x⟩
        have hfresh' : ∀ b ∈ r ++ [[x]], ∀ y ∈ b, ∀ z ∈ rest, y < z := by
          intro b hb y hy z hz
          rcases hmem' b hb with h | h
          · exact hfresh b h y hy z (List.mem_cons_of_mem x hz)
          · subst h
            simp only [List.mem_singleton] at hy
            subst hy
            exact hLhead z hz
        have hheads' : (r ++ [[x]]).Pairwise (fun b c => b.headD 0 < c.headD 0) := by
          apply List.pairwise_append.mpr
          refine ⟨hheads, List.pairwise_singleton _ _, ?_⟩
          intro b hb c hc
          simp only [List.mem_singleton] at hc
          subst hc
          have hbne := (hr1 b hb).1
          have hmem := headD_mem 0 hbne
          exact hfresh b hb (b.headD 0) hmem x (List.mem_cons_self x rest)
        have hrec := ih (d.find x).1 (r ++ [[x]]) (rts ++ [((d.find x).2, r.length)])
          hvals' hr1' hfresh' hLtail hheads'
        rw [hstep]
        refine ⟨hrec.1, hrec.2.1, ?_⟩
        have hflat : (r ++ [[x]]).flatten = r.flatten ++ [x] := by
          rw [List.flatten_append, List.flatten_cons, List.flatten_nil, List.append_nil]
        have hfilter : (x :: rest).filter (fun z => inc z) = x :: rest.filter (fun z => inc z) := by
          simp [List.filter_cons, hx]
        rw [hfilter]
        refine hrec.2.2.trans ?_
        rw [hflat, List.append_assoc]
        rfl
      · -- known root: x is appended to its root's bucket
        have hidx : idx < r.length := (hvals _ (lookup_mem hlk))
        have hgetD : r[idx]?.getD [] = r.get ⟨idx, hidx⟩ := by
          rw [List.getElem?_eq_getElem hidx, Option.getD_some, List.get_eq_getElem]
        have hstep : (DisjointSets.setsLoop inc (x :: rest) d r rts)
            = DisjointSets.setsLoop inc rest (d.find x).1
                (r.set idx (r.get ⟨idx, hidx⟩ ++ [x])) rts := by
          simp [DisjointSets.setsLoop, hx, hlk, hgetD]
        have hb_mem : r.get ⟨idx, hidx⟩ ∈ r := r.get_mem idx hidx
        have hbne := (hr1 _ hb_mem).1
        have hbsorted := (hr1 _ hb_mem).2
        have hxfresh : ∀ y ∈ r.get ⟨idx, hidx⟩, y < x :=
          fun y hy => hfresh _ hb_mem y hy x (List.mem_cons_self x rest)
        have hdecomp := eq_take_cons_drop r idx hidx
        have hset := List.set_eq_take_cons_drop (r.get ⟨idx, hidx⟩ ++ [x]) hidx
        have hmem' : ∀ b ∈ r.set idx (r.get ⟨idx, hidx⟩ ++ [x]),
            b ∈ r ∨ b = r.get ⟨idx, hidx⟩ ++ [x] := by
          intro b hb
          rw [hset] at hb
          rcases List.mem_append.mp hb with h | h
          · left
            rw [hdecomp]
            exact List.mem_append.mpr (Or.inl h)
          · rcases List.mem_cons.mp h with h2 | h2
            · exact Or.inr h2
            · left
              rw [hdecomp]
              exact List.mem_append.mpr (Or.inr (List.mem_cons_of_mem _ h2))
        have hnewsorted : (r.get ⟨idx, hidx⟩ ++ [x]).Pairwise (· < ·) := by
          apply List.pairwise_append.mpr
          refine ⟨hbsorted, List.pairwise_singleton _ _, ?_⟩
          intro a ha z hz
          simp only [List.mem_singleton] at hz
          subst hz
          exact hxfresh a ha
        have hvals' : ∀ p ∈ rts, p.2 < (r.set idx (r.get ⟨idx, hidx⟩ ++ [x])).length := by
          intro p hp
          rw [List.length_set]
          exact hvals p hp
        have hr1' : ∀ b ∈ r.set idx (r.get ⟨idx, hidx⟩ ++ [x]),
            b ≠ [] ∧ b.Pairwise (· < ·) := by
          intro b hb
          rcases hmem' b hb with h | h
          · exact hr1 b h
          · subst h
            refine ⟨?_, hnewsorted⟩
            intro hnil
            have := List.length_eq_zero.mpr hnil
            rw [List.length_append, List.length_singleton] at this
            omega
        have hfresh' : ∀ b ∈ r.set idx (r.get ⟨idx, hidx⟩ ++ [x]),
            ∀ y ∈ b, ∀ z ∈ rest, y < z := by
          intro b hb y hy z hz
          rcases hmem' b hb with h | h
          · exact hfresh b h y hy z (List.mem_cons_of_mem x hz)
          · subst h
            rcases List.mem_append.mp hy with h2 | h2
            · exact hfresh _ hb_mem y h2 z (List.mem_cons_of_mem x hz)
            · simp only [List.mem_singleton] at h2
              subst h2
              exact hLhead z hz
        have hheadD : (r.get ⟨idx, hidx⟩ ++ [x]).headD 0 = (r.get ⟨idx, hidx⟩).headD 0 :=
          headD_append_of_ne_nil [x] 0 hbne
        have hheads' : (r.set idx (r.get ⟨idx, hidx⟩ ++ [x])).Pairwise
            (fun b c => b.headD 0 < c.headD 0) := by
          have hPW := hheads
          rw [hdecomp] at hPW
          rcases List.pairwise_append.mp hPW with ⟨hA, hbC, hAcross⟩
          rcases List.pairwise_cons.mp hbC with ⟨hbAll, hC⟩
          rw [hset]
          apply List.pairwise_append.mpr
          refine ⟨hA, ?_, ?_⟩
          · apply List.pairwise_cons.mpr
            refine ⟨?_, hC⟩
            intro c hc
            rw [hheadD]
            exact hbAll c hc
          · intro a ha c hc
            rcases List.mem_cons.mp hc with h2 | h2
            · subst h2
              rw [hheadD]
              exact hAcross a ha _ (List.mem_cons_self _ _)
            · exact hAcross a ha c (List.mem_cons_of_mem _ h2)
        have hrec := ih (d.find x).1 (r.set idx (r.get ⟨idx, hidx⟩ ++ [x])) rts
          hvals' hr1' hfresh' hLtail hheads'
        rw [hstep]
        refine ⟨hrec.1, hrec.2.1, ?_⟩
        have hfilter : (x :: rest).filter (fun z => inc z)
            = x :: rest.filter (fun z => inc z) := by
          simp [List.filter_cons, hx]
        rw [hfilter]
        refine hrec.2.2.trans ?_
        have hperm := (flatten_set_perm r idx hidx x).append_right
          (rest.filter (fun z => inc z))
        refine hperm.trans ?_
        rw [List.append_assoc]
        rfl
    · -- excluded id: nothing changes
      have hx' : inc x = false := Bool.eq_false_iff.mpr hx
      have hstep : (DisjointSets.setsLoop inc (x :: rest) d r rts)
          = DisjointSets.setsLoop inc rest d r rts := by
        simp [DisjointSets.setsLoop, hx']
      have hfresh' : ∀ b ∈ r, ∀ y ∈ b, ∀ z ∈ rest, y < z :=
        fun b hb y hy z hz => hfresh b hb y hy z (List.mem_cons_of_mem x hz)
      have hrec := ih d r rts hvals hr1 hfresh' hLtail hheads
      rw [hstep]
      refine ⟨hrec.1, hrec.2.1, ?_⟩
      have hfilter : (x :: rest).filter (fun z => inc z)
          = rest.filter (fun z => inc z) := by
        simp [List.filter_cons, hx']
      rw [hfilter]
      exact hrec.2.2

/-- C7: every node id with `has_node` true appears in exactly one component
exactly once, and no other id appears; each component is non-empty and lists
its ids in ascending order (so its head is its smallest id); and the
components are ordered by their smallest ids.  The hypothesis is the
`HandleGraph` contract that all present ids lie in `[min_node_id,
max_node_id]`. -/
theorem weakly_connected_components_spec (g : HandleGraphM)
    (hrange : ∀ n, g.has_node n = true → g.min_node_id ≤ n ∧ n ≤ g.max_node_id) :
    (∀ x, (weakly_connected_components g).flatten.count x
        = if g.has_node x then 1 else 0) ∧
    (∀ b ∈ weakly_connected_components g,
      b ≠ [] ∧ b.Pairwise (· < ·) ∧ ∀ y ∈ b, b.headD 0 ≤ y) ∧
    (weakly_connected_components g).Pairwise (fun b c => b.headD 0 < c.headD 0) := by
  have hpres := wcc_state_pres g g.node_ids
    (fun _ => false, DisjointSets.init (g.max_node_id + 1 - g.min_node_id) g.min_node_id)
  set D := (g.node_ids.foldl (fun (st : (Nat → Bool) × DisjointSets) n =>
      if st.1 (n - g.min_node_id) then st
      else wccDfsLoop g g.min_node_id (wccFuel g) [⟨n, false⟩] st.1 st.2)
    (fun _ => false, DisjointSets.init (g.max_node_id + 1 - g.min_node_id)
      g.min_node_id)).2 with hD
  have hsize : D.size = g.max_node_id + 1 - g.min_node_id := by
    show D.parent.length = _
    rw [hpres.1]
    exact List.length_range _
  have hoffset : D.offset = g.min_node_id := hpres.2
  have hwcc : weakly_connected_components g
      = (DisjointSets.setsLoop g.has_node
          ((List.range D.size).map (fun i => D.offset + i)) D [] []).2 := rfl
  have hLsorted : ((List.range D.size).map (fun i => D.offset + i)).Pairwise
      (· < ·) :=
    List.pairwise_map.mpr
      (List.Pairwise.imp (fun h => Nat.add_lt_add_left h D.offset)
        (List.pairwise_lt_range D.size))
  have hspec := setsLoop_spec g.has_node
    ((List.range D.size).map (fun i => D.offset + i)) D [] []
    (fun p hp => absurd hp (List.not_mem_nil p))
    (fun b hb => absurd hb (List.not_mem_nil b))
    (fun b hb => absurd hb (List.not_mem_nil b))
    hLsorted
    List.Pairwise.nil
  have hperm : (weakly_connected_components g).flatten.Perm
      (((List.range D.size).map (fun i => D.offset + i)).filter
        (fun x => g.has_node x)) := by
    rw [hwcc]
    have := hspec.2.2
    simpa using this
  have hRnodup : ((List.range D.size).map (fun i => D.offset + i)).Nodup :=
    List.Pairwise.imp (fun h => Nat.ne_of_lt h) hLsorted
  refine ⟨?_, ?_, ?_⟩
  · intro x
    rw [hperm.count_eq x]
    by_cases hx : g.has_node x = true
    · rw [if_pos hx]
      rw [List.count_filter (by rw [hx])]
      apply List.count_eq_one_of_mem hRnodup
      apply List.mem_map.mpr
      refine ⟨x - g.min_node_id, List.mem_range.mpr ?_, ?_⟩
      · rw [hsize]
        have := hrange x hx
        omega
      · rw [hoffset]
        have := hrange x hx
        omega
    · rw [if_neg hx]
      apply List.count_eq_zero_of_not_mem
      intro hmem
      exact hx (List.of_mem_filter hmem)
  · intro b hb
    rw [hwcc] at hb
    have h1 := hspec.1 b hb
    exact ⟨h1.1, h1.2, headD_le_of_sorted h1.2⟩
  · rw [hwcc]
    exact hspec.2.1

/-- Witness for C7: the path graph `1 - 2` over ids `[1, 2]`. -/
theorem weakly_connected_components_spec_witness :
    (∀ n, (HandleGraphM.mk [1, 2] 1 2 (fun n => n == 1 || n == 2)
        (fun h => if h = ⟨1, false⟩ then [⟨2, false⟩]
          else if h = ⟨2, true⟩ then [⟨1, true⟩] else [])
        (fun h => if h = ⟨2, false⟩ then [⟨1, false⟩]
          else if h = ⟨1, true⟩ then [⟨2, true⟩] else [])).has_node n = true →
      1 ≤ n ∧ n ≤ 2) ∧
    (weakly_connected_components (HandleGraphM.mk [1, 2] 1 2 (fun n => n == 1 || n == 2)
        (fun h => if h = ⟨1, false⟩ then [⟨2, false⟩]
          else if h = ⟨2, true⟩ then [⟨1, true⟩] else [])
        (fun h => if h = ⟨2, false⟩ then [⟨1, false⟩]
          else if h = ⟨1, true⟩ then [⟨2, true⟩] else []))).Pairwise
      (fun b c => b.headD 0 < c.headD 0) := by
  have hrange : ∀ n, (HandleGraphM.mk [1, 2] 1 2 (fun n => n == 1 || n == 2)
      (fun h => if h = ⟨1, false⟩ then [⟨2, false⟩]
        else if h = ⟨2, true⟩ then [⟨1, true⟩] else [])
      (fun h => if h = ⟨2, false⟩ then [⟨1, false⟩]
        else if h = ⟨1, true⟩ then [⟨2, true⟩] else [])).has_node n = true →
      1 ≤ n ∧ n ≤ 2 := by
    intro n hn
    simp only [HandleGraphM.has_node] at hn
    rcases Bool.or_eq_true_iff.mp hn with h | h
    · have : n = 1 := by simpa using h
      omega
    · have : n = 2 := by simpa using h
      omega
  exact ⟨hrange, (weakly_connected_components_spec _ hrange).2.2⟩

/-! ## Topological order (`algorithms.cpp` lines 180-239)

`topological_order` runs Kahn's algorithm on the handles (both orientations)
of the subgraph's present nodes.  The `indegrees` map is split into its key
list (`topoDomain`, in insertion order — the C++ `unordered_map` iterates in
an unspecified order, and every property claimed is independent of it) and a
counter function.  Counters are C++ `size_t`: decrementing `0` wraps to
`2^64 - 1`, which `dec64` reproduces. -/

/-- `size_t` decrement: `c - 1` modulo `2^64`. -/
def dec64 (c : Nat) : Nat := (c + (2 ^ 64 - 1)) % 2 ^ 64

/-- The keys of the `indegrees` map: both orientations of every present
subgraph node, in insertion order (`algorithms.cpp` lines 195-201). -/
def topoDomain (g : HandleGraphM) (subgraph : List Nat) : List Handle :=
  (subgraph.filter g.has_node).flatMap (fun n => [⟨n, false⟩, ⟨n, true⟩])

/-- The indegree computed at `algorithms.cpp` lines 204-210: the number of
predecessors of `h` that are keys of the map, accumulated in a `size_t`. -/
def topoIndegree (g : HandleGraphM) (dom : List Handle) (h : Handle) : Nat :=
  ((g.preds h).countP (fun p => decide (p ∈ dom))) % 2 ^ 64

/-- Seeding the stack and the result with the zero-indegree handles, in map
order (`algorithms.cpp` lines 211-215). -/
def topoInit (g : HandleGraphM) (dom : List Handle) : List Handle × List Handle :=
  dom.foldl
    (fun sr h => if topoIndegree g dom h = 0 then (h :: sr.1, sr.2 ++ [h]) else sr)
    ([], [])

/-- Processing the out-edges of the popped handle (`algorithms.cpp` lines
223-234): for each successor that is a key of the map, decrement its counter
and, when it reaches zero, push it and append it to the result. -/
def topoStep (g : HandleGraphM) (dom : List Handle) :
    List Handle → (Handle → Nat) → List Handle → List Handle →
      (Handle → Nat) × List Handle × List Handle
  | [], cnt, stack, res => (cnt, stack, res)
  | next :: rest, cnt, stack, res =>
    if next ∈ dom then
      let c := dec64 (cnt next)
      let cnt' := fun y => if y = next then c else cnt y
      if c = 0 then topoStep g dom rest cnt' (next :: stack) (res ++ [next])
      else topoStep g dom rest cnt' stack res
    else topoStep g dom rest cnt stack res

/-- The Kahn loop (`algorithms.cpp` lines 220-235), with fuel.  Every handle
is pushed at most once, so `dom.length + 1` steps suffice for every input the
C++ can see; all verified conclusions also hold if the fuel were to run
out. -/
def topoLoop (g : HandleGraphM) (dom : List Handle) :
    Nat → (Handle → Nat) → List Handle → List Handle → List Handle
  | 0, _, _, res => res
  | _ + 1, _, [], res => res
  | fuel + 1, cnt, curr :: stack, res =>
    topoLoop g dom fuel (topoStep g dom (g.succs curr) cnt stack res).1
      (topoStep g dom (g.succs curr) cnt stack res).2.1
      (topoStep g dom (g.succs curr) cnt stack res).2.2

/-- Embeds `topological_order` (`algorithms.cpp` lines 180-239). -/
def topological_order (g : HandleGraphM) (subgraph : List Nat) : List Handle :=
  if subgraph.isEmpty then []
  else
    if (topoLoop g (topoDomain g subgraph) ((topoDomain g subgraph).length + 1)
          (topoIndegree g (topoDomain g subgraph))
          (topoInit g (topoDomain g subgraph)).1
          (topoInit g (topoDomain g subgraph)).2).length
        ≠ 2 * (subgraph.length - subgraph.countP (fun n => ! g.has_node n)) then []
    else topoLoop g (topoDomain g subgraph) ((topoDomain g subgraph).length + 1)
      (topoIndegree g (topoDomain g subgraph))
      (topoInit g (topoDomain g subgraph)).1
      (topoInit g (topoDomain g subgraph)).2

/-- Directed paths (one or more edges) through handles of `dom`. -/
inductive TopoPath (g : HandleGraphM) (dom : List Handle) : Handle → Handle → Prop
  | single {a b : Handle} : a ∈ dom → b ∈ dom → b ∈ g.succs a → TopoPath g dom a b
  | tail {a b c : Handle} : TopoPath g dom a b → c ∈ dom → c ∈ g.succs b →
      TopoPath g dom a c

/-! ### C5: properties of `topological_order` -/

theorem dec64_of_pos {c : Nat} (h1 : 1 ≤ c) (h2 : c < 2 ^ 64) : dec64 c = c - 1 := by
  unfold dec64
  omega

theorem mem_pairs_flatMap {l : List Nat} {h : Handle} :
    h ∈ l.flatMap (fun n => ([⟨n, false⟩, ⟨n, true⟩] : List Handle)) ↔ h.id ∈ l := by
  rw [List.mem_flatMap]
  constructor
  · rintro ⟨n, hn, hb⟩
    rcases List.mem_cons.mp hb with h1 | h1
    · rw [h1]
      exact hn
    · rcases List.mem_cons.mp h1 with h2 | h2
      · rw [h2]
        exact hn
      · exact absurd h2 (List.not_mem_nil h)
  · intro hid
    refine ⟨h.id, hid, ?_⟩
    rcases h with ⟨n, b⟩
    cases b
    · exact List.mem_cons_self _ _
    · exact List.mem_cons_of_mem _ (List.mem_cons_self _ _)

theorem mem_topoDomain {g : HandleGraphM} {subgraph : List Nat} {h : Handle} :
    h ∈ topoDomain g subgraph ↔ h.id ∈ subgraph.filter g.has_node :=
  mem_pairs_flatMap

theorem pairs_flatMap_nodup {l : List Nat} (hl : l.Nodup) :
    (l.flatMap (fun n => ([⟨n, false⟩, ⟨n, true⟩] : List Handle))).Nodup := by
  induction l with
  | nil => exact List.nodup_nil
  | cons n t ih =>
    rcases List.nodup_cons.mp hl with ⟨hn, ht⟩
    rw [List.flatMap_cons]
    have hrest := ih ht
    have hmem : ∀ x ∈ t.flatMap (fun m => ([⟨m, false⟩, ⟨m, true⟩] : List Handle)),
        x.id ∈ t := fun x hx => mem_pairs_flatMap.mp hx
    apply List.Nodup.append
    · refine List.nodup_cons.mpr ⟨?_, List.nodup_singleton _⟩
      intro hc
      rcases List.mem_cons.mp hc with h1 | h1
      · exact Bool.false_ne_true (congrArg Handle.is_rev h1)
      · exact absurd h1 (List.not_mem_nil _)
    · exact hrest
    · intro a ha hb
      have haid : a.id = n := by
        rcases List.mem_cons.mp ha with h1 | h1
        · rw [h1]
        · rcases List.mem_cons.mp h1 with h2 | h2
          · rw [h2]
          · exact absurd h2 (List.not_mem_nil a)
      have hat : a.id ∈ t := hmem a hb
      rw [haid] at hat
      exact hn hat

theorem topoDomain_nodup {g : HandleGraphM} {subgraph : List Nat}
    (h : subgraph.Nodup) : (topoDomain g subgraph).Nodup :=
  pairs_flatMap_nodup (h.filter g.has_node)

theorem pairs_flatMap_length (l : List Nat) :
    (l.flatMap (fun n => ([⟨n, false⟩, ⟨n, true⟩] : List Handle))).length
      = 2 * l.length := by
  induction l with
  | nil => rfl
  | cons n t ih =>
    rw [List.flatMap_cons, List.length_append, ih, List.length_cons]
    simp
    omega

theorem topoDomain_length (g : HandleGraphM) (subgraph : List Nat) :
    (topoDomain g subgraph).length = 2 * (subgraph.filter g.has_node).length :=
  pairs_flatMap_length _

/-- The exact (unbounded) indegree of a handle within the map keys. -/
def topoIndeg (g : HandleGraphM) (dom : List Handle) (h : Handle) : Nat :=
  (g.preds h).countP (fun p => decide (p ∈ dom))

theorem topoIndegree_eq_topoIndeg {g : HandleGraphM} {dom : List Handle}
    {h : Handle} (hbnd : (g.preds h).length < 2 ^ 64) :
    topoIndegree g dom h = topoIndeg g dom h := by
  unfold topoIndegree topoIndeg
  have hle : (g.preds h).countP (fun p => decide (p ∈ dom)) ≤ (g.preds h).length :=
    List.countP_le_length _
  exact Nat.mod_eq_of_lt (by omega)

/-- The in-neighbours of `b` among the map keys. -/
def domPreds (g : HandleGraphM) (dom : List Handle) (b : Handle) : List Handle :=
  dom.filter (fun p => decide (b ∈ g.succs p))

theorem topoIndeg_eq_domPreds_length {g : HandleGraphM} {dom : List Handle}
    (hdom : dom.Nodup)
    (hcoh : ∀ a ∈ dom, ∀ b ∈ dom, (b ∈ g.succs a ↔ a ∈ g.preds b))
    {b : Handle} (hb : b ∈ dom) (hpnd : (g.preds b).Nodup) :
    topoIndeg g dom b = (domPreds g dom b).length := by
  unfold topoIndeg domPreds
  rw [List.countP_eq_length_filter]
  have hperm : ((g.preds b).filter (fun p => decide (p ∈ dom))).Perm
      (dom.filter (fun p => decide (b ∈ g.succs p))) := by
    rw [List.perm_ext_iff_of_nodup (hpnd.filter _) (hdom.filter _)]
    intro p
    rw [List.mem_filter, List.mem_filter]
    constructor
    · rintro ⟨h1, h2⟩
      have hpdom : p ∈ dom := of_decide_eq_true h2
      exact ⟨hpdom, decide_eq_true ((hcoh p hpdom b hb).mpr h1)⟩
    · rintro ⟨h1, h2⟩
      exact ⟨(hcoh p h1 b hb).mp (of_decide_eq_true h2), decide_eq_true h1⟩
  exact hperm.length_eq

theorem mem_of_subset_of_length_eq {S D : List Handle} (hS : S.Nodup) (hD : D.Nodup)
    (hsub : ∀ p ∈ S, p ∈ D) (hlen : D.length ≤ S.length) : ∀ p ∈ D, p ∈ S := by
  have hfin : S.toFinset = D.toFinset := by
    apply Finset.eq_of_subset_of_card_le
    · intro a ha
      rw [List.mem_toFinset] at ha
      rw [List.mem_toFinset]
      exact hsub a ha
    · rw [List.toFinset_card_of_nodup hS, List.toFinset_card_of_nodup hD]
      exact hlen
  intro p hp
  have : p ∈ S.toFinset := by
    rw [hfin, List.mem_toFinset]
    exact hp
  rw [List.mem_toFinset] at this
  exact this

/-- Invariant preservation for `topoStep`: processing the remaining
successors `sl` of the popped handle `curr` (`pr` is the already processed
prefix).  The bookkeeping function `S` maps each key `b` to the set of
already-popped in-neighbours whose edge into `b` has been applied to `b`'s
counter; `q` is the list of handles popped before `curr`. -/
theorem topoStep_inv (g : HandleGraphM) (dom : List Handle)
    (hdom : dom.Nodup)
    (hcoh : ∀ a ∈ dom, ∀ b ∈ dom, (b ∈ g.succs a ↔ a ∈ g.preds b))
    (hsnd : ∀ h ∈ dom, (g.succs h).Nodup)
    (hpnd : ∀ h ∈ dom, (g.preds h).Nodup)
    (hbnd : ∀ h ∈ dom, (g.preds h).length < 2 ^ 64)
    (curr : Handle) (hcurrdom : curr ∈ dom) :
    ∀ (sl pr : List Handle), pr ++ sl = g.succs curr →
    ∀ (cnt : Handle → Nat) (stack res : List Handle) (q : List Handle)
      (S : Handle → List Handle),
      res.Nodup →
      (∀ h ∈ res, h ∈ dom) →
      res.Perm ((q ++ [curr]) ++ stack) →
      (∀ b ∈ dom, (S b).Nodup ∧
        (∀ p ∈ S b, (p ∈ q ∨ (p = curr ∧ b ∈ pr)) ∧ b ∈ g.succs p ∧ p ∈ dom) ∧
        (S b).length ≤ topoIndeg g dom b ∧
        cnt b = topoIndeg g dom b - (S b).length) →
      (∀ b ∈ dom, b ∈ res → cnt b = 0) →
      (∀ (j : Nat) (hj : j < res.length), ∀ p ∈ dom,
        res.get ⟨j, hj⟩ ∈ g.succs p → p ∈ res.take j) →
      ∃ S' : Handle → List Handle,
        (topoStep g dom sl cnt stack res).2.2.Nodup ∧
        (∀ h ∈ (topoStep g dom sl cnt stack res).2.2, h ∈ dom) ∧
        (topoStep g dom sl cnt stack res).2.2.Perm
          ((q ++ [curr]) ++ (topoStep g dom sl cnt stack res).2.1) ∧
        (∀ b ∈ dom, (S' b).Nodup ∧
          (∀ p ∈ S' b, (p ∈ q ∨ (p = curr ∧ b ∈ pr ++ sl)) ∧ b ∈ g.succs p ∧ p ∈ dom) ∧
          (S' b).length ≤ topoIndeg g dom b ∧
          (topoStep g dom sl cnt stack res).1 b
            = topoIndeg g dom b - (S' b).length) ∧
        (∀ b ∈ dom, b ∈ (topoStep g dom sl cnt stack res).2.2 →
          (topoStep g dom sl cnt stack res).1 b = 0) ∧
        (∀ (j : Nat) (hj : j < (topoStep g dom sl cnt stack res).2.2.length),
          ∀ p ∈ dom, (topoStep g dom sl cnt stack res).2.2.get ⟨j, hj⟩ ∈ g.succs p →
            p ∈ (topoStep g dom sl cnt stack res).2.2.take j) := by
  intro sl
  induction sl with
  | nil =>
    intro pr hprsl cnt stack res q S hnd hsub hperm hS hfull htopo
    refine ⟨S, hnd, hsub, hperm, ?_, hfull, htopo⟩
    intro b hb
    obtain ⟨s1, s2, s3, s4⟩ := hS b hb
    refine ⟨s1, ?_, s3, s4⟩
    intro p hp
    obtain ⟨m1, m2, m3⟩ := s2 p hp
    refine ⟨?_, m2, m3⟩
    rcases m1 with h3 | h3
    · exact Or.inl h3
    · exact Or.inr ⟨h3.1, by rw [List.append_nil]; exact h3.2⟩
  | cons next rest ih =>
    intro pr hprsl cnt stack res q S hnd hsub hperm hS hfull htopo
    have hnext_succ : next ∈ g.succs curr := by
      rw [← hprsl]
      exact List.mem_append.mpr (Or.inr (List.mem_cons_self next rest))
    have hprnd : next ∉ pr := by
      have hnds : (pr ++ next :: rest).Nodup := by
        rw [hprsl]
        exact hsnd curr hcurrdom
      intro hmem
      rcases List.nodup_append.mp hnds with ⟨-, -, hdisj⟩
      exact hdisj hmem (List.mem_cons_self next rest)
    have hcast : ∀ b : Handle, b ∈ (pr ++ [next]) ++ rest ↔ b ∈ pr ++ next :: rest := by
      intro b
      rw [List.append_assoc, List.singleton_append]
    have hprsl' : (pr ++ [next]) ++ rest = g.succs curr := by
      rw [List.append_assoc, List.singleton_append]
      exact hprsl
    by_cases hdom_next : next ∈ dom
    · -- `next` is a key of the map: its counter is decremented
      obtain ⟨hSnd, hSmem, hSle, hScnt⟩ := hS next hdom_next
      have hqnodup : ((q ++ [curr]) ++ stack).Nodup := (hperm.nodup_iff).mp hnd
      have hcurr_not_q : curr ∉ q := by
        rcases List.nodup_append.mp hqnodup with ⟨hql, -, -⟩
        rcases List.nodup_append.mp hql with ⟨-, -, hdisj⟩
        intro hc
        exact hdisj hc (List.mem_cons_self curr [])
      have hcurr_notin_S : curr ∉ S next := by
        intro hc
        rcases (hSmem curr hc).1 with h3 | h3
        · exact hcurr_not_q h3
        · exact hprnd h3.2
      have hdp := topoIndeg_eq_domPreds_length hdom hcoh hdom_next (hpnd next hdom_next)
      have hdpn : (domPreds g dom next).Nodup := hdom.filter _
      have hcurr_dp : curr ∈ domPreds g dom next := by
        unfold domPreds
        rw [List.mem_filter]
        exact ⟨hcurrdom, decide_eq_true hnext_succ⟩
      have hcnt_pos : 1 ≤ cnt next := by
        by_contra h0
        have hlen_eq : (S next).length = topoIndeg g dom next := by omega
        have hsubdp : ∀ p ∈ S next, p ∈ domPreds g dom next := by
          intro p hp
          obtain ⟨-, m2, m3⟩ := hSmem p hp
          unfold domPreds
          rw [List.mem_filter]
          exact ⟨m3, decide_eq_true m2⟩
        have hall := mem_of_subset_of_length_eq hSnd hdpn hsubdp
          (by rw [← hdp]; omega)
        exact hcurr_notin_S (hall curr hcurr_dp)
      have hcnt_lt : cnt next < 2 ^ 64 := by
        have h2 : topoIndeg g dom next ≤ (g.preds next).length :=
          List.countP_le_length _
        have h3 := hbnd next hdom_next
        omega
      have hdec : dec64 (cnt next) = cnt next - 1 := dec64_of_pos hcnt_pos hcnt_lt
      have hnext_notin_res : next ∉ res := by
        intro hc
        have := hfull next hdom_next hc
        omega
      -- the updated bookkeeping
      have hS1 : ∀ b ∈ dom,
          ((if b = next then curr :: S next else S b) : List Handle).Nodup ∧
          (∀ p ∈ (if b = next then curr :: S next else S b),
            (p ∈ q ∨ (p = curr ∧ b ∈ pr ++ [next])) ∧ b ∈ g.succs p ∧ p ∈ dom) ∧
          (if b = next then curr :: S next else S b).length ≤ topoIndeg g dom b ∧
          (if b = next then cnt next - 1 else cnt b)
            = topoIndeg g dom b - (if b = next then curr :: S next else S b).length := by
        intro b hb
        by_cases hbn : b = next
        · simp only [if_pos hbn]
          subst hbn
          refine ⟨List.nodup_cons.mpr ⟨hcurr_notin_S, hSnd⟩, ?_, ?_, ?_⟩
          · intro p hp
            rcases List.mem_cons.mp hp with h3 | h3
            · subst h3
              exact ⟨Or.inr ⟨rfl, List.mem_append.mpr (Or.inr (List.mem_singleton.mpr rfl))⟩,
                hnext_succ, hcurrdom⟩
            · obtain ⟨m1, m2, m3⟩ := hSmem p h3
              refine ⟨?_, m2, m3⟩
              rcases m1 with h4 | h4
              · exact Or.inl h4
              · exact Or.inr ⟨h4.1, List.mem_append.mpr (Or.inl h4.2)⟩
          · rw [List.length_cons]
            omega
          · rw [List.length_cons]
            omega
        · obtain ⟨s1, s2, s3, s4⟩ := hS b hb
          simp only [if_neg hbn]
          refine ⟨s1, ?_, s3, s4⟩
          intro p hp
          obtain ⟨m1, m2, m3⟩ := s2 p hp
          refine ⟨?_, m2, m3⟩
          rcases m1 with h4 | h4
          · exact Or.inl h4
          · exact Or.inr ⟨h4.1, List.mem_append.mpr (Or.inl h4.2)⟩
      by_cases hzero : cnt next - 1 = 0
      · -- the counter reaches zero: push and append `next`
        have hstep : topoStep g dom (next :: rest) cnt stack res
            = topoStep g dom rest (fun y => if y = next then dec64 (cnt next) else cnt y)
                (next :: stack) (res ++ [next]) := by
          simp only [topoStep]
          rw [if_pos hdom_next, if_pos (by rw [hdec]; exact hzero)]
        have hcnt2 : (fun y => if y = next then dec64 (cnt next) else cnt y)
            = (fun y => if y = next then cnt next - 1 else cnt y) := by
          funext y
          by_cases hy : y = next
          · rw [if_pos hy, if_pos hy, hdec]
          · rw [if_neg hy, if_neg hy]
        rw [hstep, hcnt2]
        -- invariant for the extended result
        have hnd1 : (res ++ [next]).Nodup := by
          apply List.Nodup.append hnd (List.nodup_singleton next)
          intro a ha hb
          rw [List.mem_singleton] at hb
          subst hb
          exact hnext_notin_res ha
        have hsub1 : ∀ h ∈ res ++ [next], h ∈ dom := by
          intro h hh
          rcases List.mem_append.mp hh with h3 | h3
          · exact hsub h h3
          · rw [List.mem_singleton] at h3
            subst h3
            exact hdom_next
        have hperm1 : (res ++ [next]).Perm ((q ++ [curr]) ++ (next :: stack)) := by
          refine (hperm.append_right [next]).trans ?_
          rw [List.append_assoc]
          exact List.Perm.append_left _ List.perm_append_comm
        have hfull1 : ∀ b ∈ dom, b ∈ res ++ [next] →
            (if b = next then cnt next - 1 else cnt b) = 0 := by
          intro b hb hbr
          rcases List.mem_append.mp hbr with h3 | h3
          · have hbn : b ≠ next := fun he => hnext_notin_res (he ▸ h3)
            rw [if_neg hbn]
            exact hfull b hb h3
          · rw [List.mem_singleton] at h3
            subst h3
            rw [if_pos rfl]
            exact hzero
        have hS1full : ∀ p ∈ domPreds g dom next, p ∈ curr :: S next := by
          apply mem_of_subset_of_length_eq
            (List.nodup_cons.mpr ⟨hcurr_notin_S, hSnd⟩) hdpn
          · intro p hp
            rcases List.mem_cons.mp hp with h3 | h3
            · subst h3
              exact hcurr_dp
            · obtain ⟨-, m2, m3⟩ := hSmem p h3
              unfold domPreds
              rw [List.mem_filter]
              exact ⟨m3, decide_eq_true m2⟩
          · rw [← hdp, List.length_cons]
            omega
        have htopo1 : ∀ (j : Nat) (hj : j < (res ++ [next]).length), ∀ p ∈ dom,
            (res ++ [next]).get ⟨j, hj⟩ ∈ g.succs p → p ∈ (res ++ [next]).take j := by
          intro j hj p hp hedge
          rcases Nat.lt_or_ge j res.length with hjlt | hjge
          · have hget : (res ++ [next]).get ⟨j, hj⟩ = res.get ⟨j, hjlt⟩ := by
              rw [List.get_eq_getElem, List.get_eq_getElem]
              exact List.getElem_append_left hjlt
            have htake : (res ++ [next]).take j = res.take j :=
              List.take_append_of_le_length (Nat.le_of_lt hjlt)
            rw [htake]
            rw [hget] at hedge
            exact htopo j hjlt p hp hedge
          · have hjlen : j = res.length := by
              rw [List.length_append, List.length_singleton] at hj
              omega
            subst hjlen
            have hget : (res ++ [next]).get ⟨res.length, hj⟩ = next := by
              rw [List.get_eq_getElem]
              simp
            have htake : (res ++ [next]).take res.length = res := by
              rw [List.take_append_of_le_length (Nat.le_refl _), List.take_length]
            rw [htake]
            rw [hget] at hedge
            have hpdp : p ∈ domPreds g dom next := by
              unfold domPreds
              rw [List.mem_filter]
              exact ⟨hp, decide_eq_true hedge⟩
            have hpS := hS1full p hpdp
            rcases List.mem_cons.mp hpS with h3 | h3
            · subst h3
              exact hperm.mem_iff.mpr
                (List.mem_append.mpr (Or.inl (List.mem_append.mpr
                  (Or.inr (List.mem_singleton.mpr rfl)))))
            · rcases (hSmem p h3).1 with h4 | h4
              · exact hperm.mem_iff.mpr
                  (List.mem_append.mpr (Or.inl (List.mem_append.mpr (Or.inl h4))))
              · exact absurd h4.2 hprnd
        obtain ⟨S', c1, c2, c3, c4, c5, c6⟩ := ih (pr ++ [next]) hprsl'
          (fun y => if y = next then cnt next - 1 else cnt y) (next :: stack)
          (res ++ [next]) q (fun b => if b = next then curr :: S next else S b)
          hnd1 hsub1 hperm1 hS1 hfull1 htopo1
        refine ⟨S', c1, c2, c3, ?_, c5, c6⟩
        intro b hb
        obtain ⟨s1, s2, s3, s4⟩ := c4 b hb
        refine ⟨s1, ?_, s3, s4⟩
        intro p hp
        obtain ⟨m1, m2, m3⟩ := s2 p hp
        refine ⟨?_, m2, m3⟩
        rcases m1 with h4 | h4
        · exact Or.inl h4
        · exact Or.inr ⟨h4.1, (hcast b).mp h4.2⟩
      · -- the counter stays positive: only the counter changes
        have hstep : topoStep g dom (next :: rest) cnt stack res
            = topoStep g dom rest (fun y => if y = next then dec64 (cnt next) else cnt y)
                stack res := by
          simp only [topoStep]
          rw [if_pos hdom_next, if_neg (by rw [hdec]; exact hzero)]
        have hcnt2 : (fun y => if y = next then dec64 (cnt next) else cnt y)
            = (fun y => if y = next then cnt next - 1 else cnt y) := by
          funext y
          by_cases hy : y = next
          · rw [if_pos hy, if_pos hy, hdec]
          · rw [if_neg hy, if_neg hy]
        rw [hstep, hcnt2]
        have hfull1 : ∀ b ∈ dom, b ∈ res →
            (if b = next then cnt next - 1 else cnt b) = 0 := by
          intro b hb hbr
          have hbn : b ≠ next := fun he => hnext_notin_res (he ▸ hbr)
          rw [if_neg hbn]
          exact hfull b hb hbr
        obtain ⟨S', c1, c2, c3, c4, c5, c6⟩ := ih (pr ++ [next]) hprsl'
          (fun y => if y = next then cnt next - 1 else cnt y) stack res q
          (fun b => if b = next then curr :: S next else S b)
          hnd hsub hperm hS1 hfull1 htopo
        refine ⟨S', c1, c2, c3, ?_, c5, c6⟩
        intro b hb
        obtain ⟨s1, s2, s3, s4⟩ := c4 b hb
        refine ⟨s1, ?_, s3, s4⟩
        intro p hp
        obtain ⟨m1, m2, m3⟩ := s2 p hp
        refine ⟨?_, m2, m3⟩
        rcases m1 with h4 | h4
        · exact Or.inl h4
        · exact Or.inr ⟨h4.1, (hcast b).mp h4.2⟩
    · -- `next` is not a key of the map: skipped
      have hstep : topoStep g dom (next :: rest) cnt stack res
          = topoStep g dom rest cnt stack res := by
        simp only [topoStep]
        rw [if_neg hdom_next]
      rw [hstep]
      have hS' : ∀ b ∈ dom, (S b).Nodup ∧
          (∀ p ∈ S b, (p ∈ q ∨ (p = curr ∧ b ∈ pr ++ [next])) ∧
            b ∈ g.succs p ∧ p ∈ dom) ∧
          (S b).length ≤ topoIndeg g dom b ∧
          cnt b = topoIndeg g dom b - (S b).length := by
        intro b hb
        obtain ⟨s1, s2, s3, s4⟩ := hS b hb
        refine ⟨s1, ?_, s3, s4⟩
        intro p hp
        obtain ⟨m1, m2, m3⟩ := s2 p hp
        refine ⟨?_, m2, m3⟩
        rcases m1 with h4 | h4
        · exact Or.inl h4
        · exact Or.inr ⟨h4.1, List.mem_append.mpr (Or.inl h4.2)⟩
      obtain ⟨S', c1, c2, c3, c4, c5, c6⟩ := ih (pr ++ [next]) hprsl'
        cnt stack res q S hnd hsub hperm hS' hfull htopo
      refine ⟨S', c1, c2, c3, ?_, c5, c6⟩
      intro b hb
      obtain ⟨s1, s2, s3, s4⟩ := c4 b hb
      refine ⟨s1, ?_, s3, s4⟩
      intro p hp
      obtain ⟨m1, m2, m3⟩ := s2 p hp
      refine ⟨?_, m2, m3⟩
      rcases m1 with h4 | h4
      · exact Or.inl h4
      · exact Or.inr ⟨h4.1, (hcast b).mp h4.2⟩

/-- Invariant preservation for the whole Kahn loop: the final result is
duplicate-free, stays inside the map keys, and respects every in-edge from a
map key. -/
theorem topoLoop_inv (g : HandleGraphM) (dom : List Handle)
    (hdom : dom.Nodup)
    (hcoh : ∀ a ∈ dom, ∀ b ∈ dom, (b ∈ g.succs a ↔ a ∈ g.preds b))
    (hsnd : ∀ h ∈ dom, (g.succs h).Nodup)
    (hpnd : ∀ h ∈ dom, (g.preds h).Nodup)
    (hbnd : ∀ h ∈ dom, (g.preds h).length < 2 ^ 64) :
    ∀ (fuel : Nat) (cnt : Handle → Nat) (stack res q : List Handle)
      (S : Handle → List Handle),
      res.Nodup →
      (∀ h ∈ res, h ∈ dom) →
      (∀ h ∈ stack, h ∈ dom) →
      res.Perm (q ++ stack) →
      (∀ b ∈ dom, (S b).Nodup ∧
        (∀ p ∈ S b, p ∈ q ∧ b ∈ g.succs p ∧ p ∈ dom) ∧
        (S b).length ≤ topoIndeg g dom b ∧
        cnt b = topoIndeg g dom b - (S b).length) →
      (∀ b ∈ dom, b ∈ res → cnt b = 0) →
      (∀ (j : Nat) (hj : j < res.length), ∀ p ∈ dom,
        res.get ⟨j, hj⟩ ∈ g.succs p → p ∈ res.take j) →
      (topoLoop g dom fuel cnt stack res).Nodup ∧
      (∀ h ∈ topoLoop g dom fuel cnt stack res, h ∈ dom) ∧
      (∀ (j : Nat) (hj : j < (topoLoop g dom fuel cnt stack res).length),
        ∀ p ∈ dom, (topoLoop g dom fuel cnt stack res).get ⟨j, hj⟩ ∈ g.succs p →
          p ∈ (topoLoop g dom fuel cnt stack res).take j) := by
  intro fuel
  induction fuel with
  | zero =>
    intro cnt stack res q S h1 h2 h3 h4 h5 h6 h7
    simp only [topoLoop]
    exact ⟨h1, h2, h7⟩
  | succ n ih =>
    intro cnt stack res q S h1 h2 h3 h4 h5 h6 h7
    cases stack with
    | nil =>
      simp only [topoLoop]
      exact ⟨h1, h2, h7⟩
    | cons curr stack' =>
      simp only [topoLoop]
      have hcurrdom : curr ∈ dom := h3 curr (List.mem_cons_self _ _)
      have hperm' : res.Perm ((q ++ [curr]) ++ stack') := by
        rw [List.append_assoc, List.singleton_append]
        exact h4
      have hS0 : ∀ b ∈ dom, (S b).Nodup ∧
          (∀ p ∈ S b, (p ∈ q ∨ (p = curr ∧ b ∈ ([] : List Handle))) ∧
            b ∈ g.succs p ∧ p ∈ dom) ∧
          (S b).length ≤ topoIndeg g dom b ∧
          cnt b = topoIndeg g dom b - (S b).length := by
        intro b hb
        obtain ⟨s1, s2, s3, s4⟩ := h5 b hb
        refine ⟨s1, ?_, s3, s4⟩
        intro p hp
        obtain ⟨m1, m2, m3⟩ := s2 p hp
        exact ⟨Or.inl m1, m2, m3⟩
      obtain ⟨S', c1, c2, c3, c4, c5, c6⟩ :=
        topoStep_inv g dom hdom hcoh hsnd hpnd hbnd curr hcurrdom
          (g.succs curr) [] rfl cnt stack' res q S h1 h2 hperm' hS0 h6 h7
      have hstacksub : ∀ h ∈ (topoStep g dom (g.succs curr) cnt stack' res).2.1,
          h ∈ dom := by
        intro h hh
        exact c2 h (c3.mem_iff.mpr (List.mem_append.mpr (Or.inr hh)))
      have hS' : ∀ b ∈ dom,
          (S' b).Nodup ∧
          (∀ p ∈ S' b, p ∈ q ++ [curr] ∧ b ∈ g.succs p ∧ p ∈ dom) ∧
          (S' b).length ≤ topoIndeg g dom b ∧
          (topoStep g dom (g.succs curr) cnt stack' res).1 b
            = topoIndeg g dom b - (S' b).length := by
        intro b hb
        obtain ⟨s1, s2, s3, s4⟩ := c4 b hb
        refine ⟨s1, ?_, s3, s4⟩
        intro p hp
        obtain ⟨m1, m2, m3⟩ := s2 p hp
        refine ⟨?_, m2, m3⟩
        rcases m1 with h4' | h4'
        · exact List.mem_append.mpr (Or.inl h4')
        · exact List.mem_append.mpr (Or.inr (List.mem_singleton.mpr h4'.1))
      exact ih (topoStep g dom (g.succs curr) cnt stack' res).1
        (topoStep g dom (g.succs curr) cnt stack' res).2.1
        (topoStep g dom (g.succs curr) cnt stack' res).2.2
        (q ++ [curr]) S' c1 c2 hstacksub c3 hS' c5 c6

/-- The seeding fold, characterised: the result collects the zero-indegree
keys in map order, the stack collects them in reverse. -/
theorem topoInit_go (g : HandleGraphM) (dom : List Handle) :
    ∀ (l : List Handle) (s r : List Handle),
      l.foldl
        (fun sr h => if topoIndegree g dom h = 0 then (h :: sr.1, sr.2 ++ [h]) else sr)
        (s, r)
      = ((l.filter (fun h => decide (topoIndegree g dom h = 0))).reverse ++ s,
         r ++ l.filter (fun h => decide (topoIndegree g dom h = 0))) := by
  intro l
  induction l with
  | nil =>
    intro s r
    simp
  | cons h t ih =>
    intro s r
    rw [List.foldl_cons]
    by_cases hz : topoIndegree g dom h = 0
    · rw [if_pos hz, ih]
      simp [hz]
    · rw [if_neg hz, ih]
      simp [hz]

theorem topoInit_eq (g : HandleGraphM) (dom : List Handle) :
    topoInit g dom
      = ((dom.filter (fun h => decide (topoIndegree g dom h = 0))).reverse,
         dom.filter (fun h => decide (topoIndegree g dom h = 0))) := by
  unfold topoInit
  rw [topoInit_go]
  rw [List.append_nil, List.nil_append]

/-- The last node of a path lies in `dom`. -/
theorem TopoPath.end_mem {g : HandleGraphM} {dom : List Handle} {a b : Handle}
    (h : TopoPath g dom a b) : b ∈ dom := by
  cases h with
  | single _ hb _ => exact hb
  | tail _ hc _ => exact hc

/-- In a duplicate-free list that respects every in-edge from `dom`, the
start of any path ending at position `j` occurs strictly before `j`. -/
theorem topo_path_before {g : HandleGraphM} {dom res : List Handle}
    (htopo : ∀ (j : Nat) (hj : j < res.length), ∀ p ∈ dom,
      res.get ⟨j, hj⟩ ∈ g.succs p → p ∈ res.take j) :
    ∀ {a b : Handle}, TopoPath g dom a b →
      ∀ (j : Nat) (hj : j < res.length), res.get ⟨j, hj⟩ = b → a ∈ res.take j := by
  intro a b hpath
  induction hpath with
  | single ha _ hedge =>
    intro j hj hget
    exact htopo j hj _ ha (by rw [hget]; exact hedge)
  | tail _ hc hedge ih =>
    intro j hj hget
    have hbmem : _ ∈ res.take j := htopo j hj _ (TopoPath.end_mem (by assumption))
      (by rw [hget]; exact hedge)
    obtain ⟨i, hi, he⟩ := List.mem_take_iff_getElem.mp hbmem
    have hia := ih i (by omega) (by rw [List.get_eq_getElem]; exact he)
    have hsub : res.take i ⊆ res.take j := by
      intro x hx
      rw [List.mem_take_iff_getElem] at hx ⊢
      obtain ⟨i2, hi2, he2⟩ := hx
      exact ⟨i2, by omega, he2⟩
    exact hsub hia

/-- C5: for every graph and subgraph node-id set (duplicate-free, with
coherent and duplicate-free adjacency lists of `size_t`-countable length),
`topological_order` returns either `[]` or a list of exactly
`2 · |present nodes|` handles containing both orientations of every present
node exactly once, in which every edge between listed handles goes from an
earlier position to a later one; and whenever the restriction of the graph
to the subgraph keys has a directed cycle, the result is `[]`. -/
theorem topological_order_spec (g : HandleGraphM) (subgraph : List Nat)
    (hnd : subgraph.Nodup)
    (hcoh : ∀ a ∈ topoDomain g subgraph, ∀ b ∈ topoDomain g subgraph,
      (b ∈ g.succs a ↔ a ∈ g.preds b))
    (hsnd : ∀ h ∈ topoDomain g subgraph, (g.succs h).Nodup)
    (hpnd : ∀ h ∈ topoDomain g subgraph, (g.preds h).Nodup)
    (hbnd : ∀ h ∈ topoDomain g subgraph, (g.preds h).length < 2 ^ 64) :
    (topological_order g subgraph = [] ∨
      ((topological_order g subgraph).length
          = 2 * (subgraph.filter g.has_node).length ∧
        (∀ n ∈ subgraph, g.has_node n = true →
          (topological_order g subgraph).count ⟨n, false⟩ = 1 ∧
          (topological_order g subgraph).count ⟨n, true⟩ = 1) ∧
        (∀ h ∈ topological_order g subgraph,
          h.id ∈ subgraph ∧ g.has_node h.id = true) ∧
        (∀ (j : Nat) (hj : j < (topological_order g subgraph).length),
          ∀ p ∈ topological_order g subgraph,
            (topological_order g subgraph).get ⟨j, hj⟩ ∈ g.succs p →
              p ∈ (topological_order g subgraph).take j))) ∧
    ((∃ h ∈ topoDomain g subgraph, TopoPath g (topoDomain g subgraph) h h) →
      topological_order g subgraph = []) := by
  have hdomnd : (topoDomain g subgraph).Nodup := topoDomain_nodup hnd
  have hinit := topoInit_eq g (topoDomain g subgraph)
  -- initial state of the loop
  have hres0 : (topoInit g (topoDomain g subgraph)).2
      = (topoDomain g subgraph).filter
          (fun h => decide (topoIndegree g (topoDomain g subgraph) h = 0)) := by
    rw [hinit]
  have hstack0 : (topoInit g (topoDomain g subgraph)).1
      = ((topoDomain g subgraph).filter
          (fun h => decide (topoIndegree g (topoDomain g subgraph) h = 0))).reverse := by
    rw [hinit]
  have h1 : (topoInit g (topoDomain g subgraph)).2.Nodup := by
    rw [hres0]
    exact hdomnd.filter _
  have h2 : ∀ h ∈ (topoInit g (topoDomain g subgraph)).2, h ∈ topoDomain g subgraph := by
    rw [hres0]
    intro h hh
    exact (List.mem_filter.mp hh).1
  have h3 : ∀ h ∈ (topoInit g (topoDomain g subgraph)).1, h ∈ topoDomain g subgraph := by
    rw [hstack0]
    intro h hh
    exact (List.mem_filter.mp (List.mem_reverse.mp hh)).1
  have h4 : (topoInit g (topoDomain g subgraph)).2.Perm
      ([] ++ (topoInit g (topoDomain g subgraph)).1) := by
    rw [hres0, hstack0, List.nil_append]
    exact (List.reverse_perm _).symm
  have h5 : ∀ b ∈ topoDomain g subgraph, (([] : List Handle)).Nodup ∧
      (∀ p ∈ ([] : List Handle),
        p ∈ ([] : List Handle) ∧ b ∈ g.succs p ∧ p ∈ topoDomain g subgraph) ∧
      (([] : List Handle)).length ≤ topoIndeg g (topoDomain g subgraph) b ∧
      topoIndegree g (topoDomain g subgraph) b
        = topoIndeg g (topoDomain g subgraph) b - (([] : List Handle)).length := by
    intro b hb
    refine ⟨List.nodup_nil, ?_, Nat.zero_le _, ?_⟩
    · intro p hp
      exact absurd hp (List.not_mem_nil p)
    · rw [List.length_nil, Nat.sub_zero]
      exact topoIndegree_eq_topoIndeg (hbnd b hb)
  have h6 : ∀ b ∈ topoDomain g subgraph, b ∈ (topoInit g (topoDomain g subgraph)).2 →
      topoIndegree g (topoDomain g subgraph) b = 0 := by
    intro b _ hbr
    rw [hres0] at hbr
    exact of_decide_eq_true (List.mem_filter.mp hbr).2
  have h7 : ∀ (j : Nat) (hj : j < (topoInit g (topoDomain g subgraph)).2.length),
      ∀ p ∈ topoDomain g subgraph,
        (topoInit g (topoDomain g subgraph)).2.get ⟨j, hj⟩ ∈ g.succs p →
          p ∈ (topoInit g (topoDomain g subgraph)).2.take j := by
    intro j hj p hp hedge
    exfalso
    have hbmem : (topoInit g (topoDomain g subgraph)).2.get ⟨j, hj⟩
        ∈ (topoInit g (topoDomain g subgraph)).2 := List.get_mem _ _ _
    have hbdom := h2 _ hbmem
    have hb0 := h6 _ hbdom hbmem
    rw [topoIndegree_eq_topoIndeg
      (hbnd _ hbdom)] at hb0
    have hppred : p ∈ g.preds ((topoInit g (topoDomain g subgraph)).2.get ⟨j, hj⟩) :=
      (hcoh p hp _ hbdom).mp hedge
    have hpos : 0 < topoIndeg g (topoDomain g subgraph)
        ((topoInit g (topoDomain g subgraph)).2.get ⟨j, hj⟩) := by
      unfold topoIndeg
      exact List.countP_pos_iff.mpr ⟨p, hppred, decide_eq_true hp⟩
    omega
  obtain ⟨hT0nd, hT0sub, hT0topo⟩ := topoLoop_inv g (topoDomain g subgraph)
    hdomnd hcoh hsnd hpnd hbnd ((topoDomain g subgraph).length + 1)
    (topoIndegree g (topoDomain g subgraph))
    (topoInit g (topoDomain g subgraph)).1
    (topoInit g (topoDomain g subgraph)).2
    [] (fun _ => []) h1 h2 h3 h4 h5 h6 h7
  simp only [topological_order]
  by_cases hemp : subgraph.isEmpty = true
  · rw [if_pos hemp]
    exact ⟨Or.inl rfl, fun _ => rfl⟩
  · rw [if_neg hemp]
    by_cases hlen : (topoLoop g (topoDomain g subgraph)
        ((topoDomain g subgraph).length + 1)
        (topoIndegree g (topoDomain g subgraph))
        (topoInit g (topoDomain g subgraph)).1
        (topoInit g (topoDomain g subgraph)).2).length
        = 2 * (subgraph.length - subgraph.countP (fun n => ! g.has_node n))
    · rw [if_neg (not_not_intro hlen)]
      -- the returned list is a permutation of the key list
      have hsplit : subgraph.length
          = subgraph.countP g.has_node + subgraph.countP (fun n => ! g.has_node n) := by
        simpa using List.length_eq_countP_add_countP (l := subgraph) g.has_node
      have hfl : (subgraph.filter g.has_node).length = subgraph.countP g.has_node :=
        (List.countP_eq_length_filter _ _).symm
      have hdlen := topoDomain_length g subgraph
      have hlen2 : (topoLoop g (topoDomain g subgraph)
          ((topoDomain g subgraph).length + 1)
          (topoIndegree g (topoDomain g subgraph))
          (topoInit g (topoDomain g subgraph)).1
          (topoInit g (topoDomain g subgraph)).2).length
          = (topoDomain g subgraph).length := by omega
      have hTperm : (topoLoop g (topoDomain g subgraph)
          ((topoDomain g subgraph).length + 1)
          (topoIndegree g (topoDomain g subgraph))
          (topoInit g (topoDomain g subgraph)).1
          (topoInit g (topoDomain g subgraph)).2).Perm (topoDomain g subgraph) := by
        apply (hT0nd.subperm (fun h hh => hT0sub h hh)).perm_of_length_le
        omega
      refine ⟨Or.inr ⟨by omega, ?_, ?_, ?_⟩, ?_⟩
      · intro n hn hhas
        constructor
        · rw [hTperm.count_eq]
          exact List.count_eq_one_of_mem hdomnd
            (mem_topoDomain.mpr (List.mem_filter.mpr ⟨hn, hhas⟩))
        · rw [hTperm.count_eq]
          exact List.count_eq_one_of_mem hdomnd
            (mem_topoDomain.mpr (List.mem_filter.mpr ⟨hn, hhas⟩))
      · intro h hh
        have := List.mem_filter.mp (mem_topoDomain.mp (hT0sub h hh))
        exact ⟨this.1, this.2⟩
      · intro j hj p hp hedge
        exact hT0topo j hj p (hT0sub p hp) hedge
      · -- a directed cycle contradicts the completed traversal
        rintro ⟨h0, hh0, hpath⟩
        exfalso
        have hh0T : h0 ∈ topoLoop g (topoDomain g subgraph)
            ((topoDomain g subgraph).length + 1)
            (topoIndegree g (topoDomain g subgraph))
            (topoInit g (topoDomain g subgraph)).1
            (topoInit g (topoDomain g subgraph)).2 := hTperm.mem_iff.mpr hh0
        obtain ⟨j, hj, hget⟩ := List.mem_iff_getElem.mp hh0T
        have hbefore := topo_path_before hT0topo hpath j hj
          (by rw [List.get_eq_getElem]; exact hget)
        obtain ⟨i, hi, hei⟩ := List.mem_take_iff_getElem.mp hbefore
        have hgij : (topoLoop g (topoDomain g subgraph)
            ((topoDomain g subgraph).length + 1)
            (topoIndegree g (topoDomain g subgraph))
            (topoInit g (topoDomain g subgraph)).1
            (topoInit g (topoDomain g subgraph)).2).get ⟨i, by omega⟩
            = (topoLoop g (topoDomain g subgraph)
            ((topoDomain g subgraph).length + 1)
            (topoIndegree g (topoDomain g subgraph))
            (topoInit g (topoDomain g subgraph)).1
            (topoInit g (topoDomain g subgraph)).2).get ⟨j, hj⟩ := by
          rw [List.get_eq_getElem, List.get_eq_getElem, hei, hget]
        have := (List.Nodup.get_inj_iff hT0nd).mp hgij
        have : i = j := congrArg Fin.val this
        omega
    · rw [if_pos hlen]
      exact ⟨Or.inl rfl, fun _ => rfl⟩

/-- Witness for C5: the two-node DAG `1+ → 2+` (and its reverse complement
`2- → 1-`) over subgraph `[1, 2]`; the traversal succeeds with all four
handles. -/
theorem topological_order_spec_witness :
    (topological_order (HandleGraphM.mk [1, 2] 1 2 (fun n => n == 1 || n == 2)
        (fun h => if h = ⟨1, false⟩ then [⟨2, false⟩]
          else if h = ⟨2, true⟩ then [⟨1, true⟩] else [])
        (fun h => if h = ⟨2, false⟩ then [⟨1, false⟩]
          else if h = ⟨1, true⟩ then [⟨2, true⟩] else [])) [1, 2]).length
      = 2 * (([1, 2] : List Nat).filter
          (HandleGraphM.mk [1, 2] 1 2 (fun n => n == 1 || n == 2)
            (fun h => if h = ⟨1, false⟩ then [⟨2, false⟩]
              else if h = ⟨2, true⟩ then [⟨1, true⟩] else [])
            (fun h => if h = ⟨2, false⟩ then [⟨1, false⟩]
              else if h = ⟨1, true⟩ then [⟨2, true⟩] else [])).has_node).length := by
  rcases (topological_order_spec (HandleGraphM.mk [1, 2] 1 2 (fun n => n == 1 || n == 2)
      (fun h => if h = ⟨1, false⟩ then [⟨2, false⟩]
        else if h = ⟨2, true⟩ then [⟨1, true⟩] else [])
      (fun h => if h = ⟨2, false⟩ then [⟨1, false⟩]
        else if h = ⟨1, true⟩ then [⟨2, true⟩] else [])) [1, 2]
      (by decide) (by decide) (by decide) (by decide) (by decide)).1 with h | h
  · exact absurd h (by decide)
  · exact h.1

/-! ## is_nice_and_acyclic (`algorithms.cpp` lines 110-176)

The `nodes` map (id → (remaining indegree, orientation)) is split into its
key set — the present component ids — and a value function.  Counters are
C++ `size_t` with the sentinel `NOT_SEEN = 2^64 - 1`; decrementing uses
`dec64`.  The C++ reads `nodes.find(next_id)` without checking for a miss
(undefined behaviour when a successor is not a key); the embedding returns
failure there, and every theorem's closure hypotheses make the case
unreachable. -/

/-- The sentinel `std::numeric_limits<size_t>::max()`. -/
def NOT_SEEN : Nat := 2 ^ 64 - 1

/-- `get_degree(handle, true)` stored into a `size_t`: the number of
predecessors of `h`, modulo `2^64`. -/
def niceDegree (g : HandleGraphM) (h : Handle) : Nat :=
  (g.preds h).length % 2 ^ 64

/-- The head-finding pass (`algorithms.cpp` lines 122-139): for each present
component node, a zero-indegree node becomes a head (map entry `(0, false)`,
pushed forward onto the stack, appended to `head_nodes`), any other node is
marked `NOT_SEEN`.  Returns (value function, stack, head list); `found` and
`missing_nodes` are recovered as `heads.length` and a `countP`. -/
def niceInit (g : HandleGraphM) (comp : List Nat) :
    (Nat → Nat × Bool) × List Handle × List Nat :=
  comp.foldl
    (fun st n =>
      if g.has_node n then
        if niceDegree g ⟨n, false⟩ = 0 then
          (fun k => if k = n then (0, false) else st.1 k,
           (⟨n, false⟩ : Handle) :: st.2.1, st.2.2 ++ [n])
        else
          (fun k => if k = n then (NOT_SEEN, false) else st.1 k, st.2.1, st.2.2)
      else st)
    (fun _ => (0, false), [], [])

/-- Processing the out-edges of the popped handle (`algorithms.cpp` lines
148-169).  A `NOT_SEEN` entry is a first visit: the entry becomes the
arrival's whole-graph indegree and orientation; otherwise a mismatched
orientation aborts (`ok = false`).  The counter is then decremented and the
node is activated when it reaches zero.  `none` models the abort — including
the key-miss case that is undefined behaviour in the C++. -/
def niceArrivals (g : HandleGraphM) (dom : List Nat) :
    List Handle → (Nat → Nat × Bool) → List Handle → Nat →
      Option ((Nat → Nat × Bool) × List Handle × Nat)
  | [], val, stack, found => some (val, stack, found)
  | next :: rest, val, stack, found =>
    if next.id ∈ dom then
      if (val next.id).1 = NOT_SEEN then
        let c := dec64 (niceDegree g next)
        let val' := fun k => if k = next.id then (c, next.is_rev) else val k
        if c = 0 then niceArrivals g dom rest val' (next :: stack) (found + 1)
        else niceArrivals g dom rest val' stack found
      else
        if next.is_rev ≠ (val next.id).2 then none
        else
          let c := dec64 (val next.id).1
          let val' := fun k => if k = next.id then (c, (val next.id).2) else val k
          if c = 0 then niceArrivals g dom rest val' (next :: stack) (found + 1)
          else niceArrivals g dom rest val' stack found
    else none

/-- The traversal loop (`algorithms.cpp` lines 144-171), with fuel; a handle
can be pushed at most once in any run the C++ call sites produce, so
`comp.length + 1` iterations suffice, and the verified conclusions hold for
any fuel-exhausted outcome as well.  Returns the final `found` count, or
`none` when the traversal aborted. -/
def niceLoop (g : HandleGraphM) (dom : List Nat) :
    Nat → (Nat → Nat × Bool) → List Handle → Nat → Option Nat
  | 0, _, _, found => some found
  | _ + 1, _, [], found => some found
  | fuel + 1, val, curr :: stack, found =>
    match niceArrivals g dom (g.succs curr) val stack found with
    | none => none
    | some (val', stack', found') => niceLoop g dom fuel val' stack' found'

/-- Embeds `is_nice_and_acyclic` (`algorithms.cpp` lines 110-176): find the
head nodes; traverse; fail on an orientation conflict or when the number of
activated nodes differs from `component.size() - missing_nodes`; on failure
clear the head list. -/
def is_nice_and_acyclic (g : HandleGraphM) (comp : List Nat) : List Nat :=
  if comp.isEmpty then []
  else
    match niceLoop g (comp.filter g.has_node) (comp.length + 1)
        (niceInit g comp).1 (niceInit g comp).2.1
        (niceInit g comp).2.2.length with
    | none => []
    | some found =>
      if found ≠ comp.length - comp.countP (fun n => ! g.has_node n) then []
      else (niceInit g comp).2.2

/-- The head list, written declaratively: the present component nodes whose
forward handle has indegree zero, in component order. -/
def niceHeads (g : HandleGraphM) (comp : List Nat) : List Nat :=
  (comp.filter g.has_node).filter (fun n => decide (niceDegree g ⟨n, false⟩ = 0))

/-- Modelled from the spec (§4.3): an orientation-consistent DAG on the
present component nodes.  `σ` chooses each node's traversal orientation and
`L` is a topological enumeration of the present nodes: adjacency is closed
over the component and orientation-consistent in both directions, there are
no self-loops and no back edges (so the oriented restriction is acyclic),
and every source — in particular every node whose forward handle has
indegree zero — is oriented forward. -/
def NiceOrientedDag (g : HandleGraphM) (comp : List Nat) : Prop :=
  ∃ (σ : Nat → Bool) (L : List Nat),
    L.Nodup ∧
    (∀ n ∈ L, n ∈ comp ∧ g.has_node n = true) ∧
    (∀ n ∈ comp, g.has_node n = true → n ∈ L) ∧
    (∀ n ∈ L, ∀ s ∈ g.succs (⟨n, σ n⟩ : Handle), s.id ∈ L ∧ s.is_rev = σ s.id) ∧
    (∀ n ∈ L, ∀ p ∈ g.preds (⟨n, σ n⟩ : Handle), p.id ∈ L ∧ p.is_rev = σ p.id) ∧
    (∀ n ∈ L, (⟨n, σ n⟩ : Handle) ∉ g.succs ⟨n, σ n⟩) ∧
    L.Pairwise (fun a b => (⟨a, σ a⟩ : Handle) ∉ g.succs ⟨b, σ b⟩) ∧
    (∀ n ∈ L, ((g.preds (⟨n, σ n⟩ : Handle)).length = 0 ∨
      (g.preds (⟨n, false⟩ : Handle)).length = 0) → σ n = false)

/-! ### C6: properties of `is_nice_and_acyclic` -/

/-- The head-finding fold, characterised. -/
theorem niceInit_go (g : HandleGraphM) :
    ∀ (l : List Nat) (val : Nat → Nat × Bool) (stack : List Handle)
      (heads : List Nat),
      l.foldl
        (fun (st : (Nat → Nat × Bool) × List Handle × List Nat) n =>
          if g.has_node n then
            if niceDegree g ⟨n, false⟩ = 0 then
              (fun k => if k = n then (0, false) else st.1 k,
               (⟨n, false⟩ : Handle) :: st.2.1, st.2.2 ++ [n])
            else
              (fun k => if k = n then (NOT_SEEN, false) else st.1 k, st.2.1, st.2.2)
          else st)
        (val, stack, heads)
      = (fun k => if k ∈ l.filter g.has_node then
            (if niceDegree g ⟨k, false⟩ = 0 then ((0 : Nat), false)
             else (NOT_SEEN, false))
          else val k,
         ((l.filter g.has_node).filter
             (fun n => decide (niceDegree g ⟨n, false⟩ = 0))).reverse.map
           (fun n => (⟨n, false⟩ : Handle)) ++ stack,
         heads ++ (l.filter g.has_node).filter
           (fun n => decide (niceDegree g ⟨n, false⟩ = 0))) := by
  intro l
  induction l with
  | nil =>
    intro val stack heads
    simp only [List.foldl_nil, List.filter_nil, List.reverse_nil, List.map_nil,
      List.nil_append, List.append_nil, List.not_mem_nil, if_false]
  | cons n t ih =>
    intro val stack heads
    rw [List.foldl_cons]
    by_cases hhn : g.has_node n = true
    · by_cases hdeg : niceDegree g ⟨n, false⟩ = 0
      · simp only [if_pos hhn, if_pos hdeg]
        rw [ih]
        have hfc : List.filter (fun m => decide (niceDegree g ⟨m, false⟩ = 0))
            (n :: t.filter g.has_node)
            = n :: List.filter (fun m => decide (niceDegree g ⟨m, false⟩ = 0))
                (t.filter g.has_node) :=
          List.filter_cons_of_pos (by simp [hdeg])
        rw [List.filter_cons_of_pos hhn, hfc]
        refine Prod.ext ?_ (Prod.ext ?_ ?_)
        · funext k
          dsimp only
          by_cases hkt : k ∈ t.filter g.has_node
          · rw [if_pos hkt, if_pos (List.mem_cons_of_mem n hkt)]
          · rw [if_neg hkt]
            by_cases hkn : k = n
            · subst hkn
              rw [if_pos (List.mem_cons_self _ _), if_pos rfl, if_pos hdeg]
            · rw [if_neg hkn, if_neg (by
                intro hc
                rcases List.mem_cons.mp hc with h1 | h1
                · exact hkn h1
                · exact hkt h1)]
        · dsimp only
          rw [List.reverse_cons, List.map_append, List.append_assoc]
          rfl
        · dsimp only
          rw [List.append_assoc, List.singleton_append]
      · simp only [if_pos hhn, if_neg hdeg]
        rw [ih]
        have hfc : List.filter (fun m => decide (niceDegree g ⟨m, false⟩ = 0))
            (n :: t.filter g.has_node)
            = List.filter (fun m => decide (niceDegree g ⟨m, false⟩ = 0))
                (t.filter g.has_node) :=
          List.filter_cons_of_neg (by simp [hdeg])
        rw [List.filter_cons_of_pos hhn, hfc]
        refine Prod.ext ?_ rfl
        funext k
        dsimp only
        by_cases hkt : k ∈ t.filter g.has_node
        · rw [if_pos hkt, if_pos (List.mem_cons_of_mem n hkt)]
        · rw [if_neg hkt]
          by_cases hkn : k = n
          · subst hkn
            rw [if_pos (List.mem_cons_self _ _), if_pos rfl, if_neg hdeg]
          · rw [if_neg hkn, if_neg (by
              intro hc
              rcases List.mem_cons.mp hc with h1 | h1
              · exact hkn h1
              · exact hkt h1)]
    · simp only [if_neg hhn]
      rw [ih, List.filter_cons_of_neg hhn]

theorem niceInit_eq (g : HandleGraphM) (comp : List Nat) :
    niceInit g comp
      = (fun k => if k ∈ comp.filter g.has_node then
            (if niceDegree g ⟨k, false⟩ = 0 then ((0 : Nat), false)
             else (NOT_SEEN, false))
          else (0, false),
         (niceHeads g comp).reverse.map (fun n => (⟨n, false⟩ : Handle)),
         niceHeads g comp) := by
  unfold niceInit niceHeads
  rw [niceInit_go]
  rw [List.append_nil, List.nil_append]

theorem two_pow_64_eq : (2 : Nat) ^ 64 = 18446744073709551616 := by norm_num

theorem niceDegree_eq {g : HandleGraphM} {h : Handle}
    (hb : (g.preds h).length < 2 ^ 64) : niceDegree g h = (g.preds h).length :=
  Nat.mod_eq_of_lt hb

/-- The traversal invariant while the successors of the popped handle `curr`
are being processed; `pr` is the processed prefix of the successor list, `q`
the handles popped before `curr`, `act` the activated nodes in activation
order, and `S n` the in-edges of `⟨n, σ n⟩` already applied to `n`'s
counter. -/
structure NiceInv (g : HandleGraphM) (σ : Nat → Bool) (L : List Nat)
    (q : List Nat) (curr : Handle) (pr : List Handle)
    (val : Nat → Nat × Bool) (stack : List Handle) (found : Nat)
    (act : List Nat) (S : Nat → List Handle) : Prop where
  act_nd : act.Nodup
  act_sub : ∀ n ∈ act, n ∈ L
  act_perm : act.Perm ((q ++ [curr.id]) ++ stack.map Handle.id)
  stack_or : ∀ h ∈ stack, h.is_rev = σ h.id
  found_eq : found = act.length
  val_head : ∀ n ∈ L, niceDegree g ⟨n, false⟩ = 0 →
    val n = (0, false) ∧ S n = [] ∧ n ∈ act
  val_act : ∀ n ∈ L, ¬(niceDegree g ⟨n, false⟩ = 0) → n ∈ act →
    val n = (0, σ n) ∧ (S n).length = (g.preds (⟨n, σ n⟩ : Handle)).length
  val_unseen : ∀ n ∈ L, ¬(niceDegree g ⟨n, false⟩ = 0) → n ∉ act → S n = [] →
    val n = (NOT_SEEN, false)
  val_part : ∀ n ∈ L, ¬(niceDegree g ⟨n, false⟩ = 0) → n ∉ act → S n ≠ [] →
    val n = ((g.preds (⟨n, σ n⟩ : Handle)).length - (S n).length, σ n) ∧
    (S n).length < (g.preds (⟨n, σ n⟩ : Handle)).length
  S_nd : ∀ n ∈ L, (S n).Nodup
  S_mem : ∀ n ∈ L, ∀ p ∈ S n, p ∈ g.preds (⟨n, σ n⟩ : Handle) ∧
    (p.id ∈ q ∨ (p = curr ∧ (⟨n, σ n⟩ : Handle) ∈ pr))
  S_com : ∀ n ∈ L, ∀ p ∈ g.preds (⟨n, σ n⟩ : Handle),
    (p.id ∈ q ∨ (p = curr ∧ (⟨n, σ n⟩ : Handle) ∈ pr)) → p ∈ S n

/-- The invariant between loop iterations: `q` is the full popped list. -/
structure NiceInvL (g : HandleGraphM) (σ : Nat → Bool) (L : List Nat)
    (q : List Nat) (val : Nat → Nat × Bool) (stack : List Handle) (found : Nat)
    (act : List Nat) (S : Nat → List Handle) : Prop where
  act_nd : act.Nodup
  act_sub : ∀ n ∈ act, n ∈ L
  act_perm : act.Perm (q ++ stack.map Handle.id)
  stack_or : ∀ h ∈ stack, h.is_rev = σ h.id
  found_eq : found = act.length
  val_head : ∀ n ∈ L, niceDegree g ⟨n, false⟩ = 0 →
    val n = (0, false) ∧ S n = [] ∧ n ∈ act
  val_act : ∀ n ∈ L, ¬(niceDegree g ⟨n, false⟩ = 0) → n ∈ act →
    val n = (0, σ n) ∧ (S n).length = (g.preds (⟨n, σ n⟩ : Handle)).length
  val_unseen : ∀ n ∈ L, ¬(niceDegree g ⟨n, false⟩ = 0) → n ∉ act → S n = [] →
    val n = (NOT_SEEN, false)
  val_part : ∀ n ∈ L, ¬(niceDegree g ⟨n, false⟩ = 0) → n ∉ act → S n ≠ [] →
    val n = ((g.preds (⟨n, σ n⟩ : Handle)).length - (S n).length, σ n) ∧
    (S n).length < (g.preds (⟨n, σ n⟩ : Handle)).length
  S_nd : ∀ n ∈ L, (S n).Nodup
  S_mem : ∀ n ∈ L, ∀ p ∈ S n, p ∈ g.preds (⟨n, σ n⟩ : Handle) ∧ p.id ∈ q
  S_com : ∀ n ∈ L, ∀ p ∈ g.preds (⟨n, σ n⟩ : Handle), p.id ∈ q → p ∈ S n

/-- Applying one in-edge arrival `curr → next` to the invariant: the edge is
recorded in `S`, the counter becomes `indegree - |S| - 1`, and the node is
activated exactly when the counter reaches zero. -/
theorem niceInv_arrive (g : HandleGraphM) (σ : Nat → Bool) (L : List Nat)
    (curr : Handle)
    (pr : List Handle) (val : Nat → Nat × Bool) (stack : List Handle)
    (found : Nat) (act q : List Nat) (S : Nat → List Handle)
    (next : Handle)
    (inv : NiceInv g σ L q curr pr val stack found act S)
    (hnL : next.id ∈ L) (hnor : next.is_rev = σ next.id)
    (hnothead : ¬ (niceDegree g ⟨next.id, false⟩ = 0))
    (hnact : next.id ∉ act)
    (hcpred : curr ∈ g.preds (⟨next.id, σ next.id⟩ : Handle))
    (hcnotS : curr ∉ S next.id) :
    (((S next.id).length + 1 = (g.preds (⟨next.id, σ next.id⟩ : Handle)).length) →
      NiceInv g σ L q curr (pr ++ [next])
        (fun k => if k = next.id then
          ((g.preds (⟨next.id, σ next.id⟩ : Handle)).length - ((S next.id).length + 1),
           σ next.id)
          else val k)
        (next :: stack) (found + 1) (act ++ [next.id])
        (fun k => if k = next.id then curr :: S next.id else S k)) ∧
    (((S next.id).length + 1 < (g.preds (⟨next.id, σ next.id⟩ : Handle)).length) →
      NiceInv g σ L q curr (pr ++ [next])
        (fun k => if k = next.id then
          ((g.preds (⟨next.id, σ next.id⟩ : Handle)).length - ((S next.id).length + 1),
           σ next.id)
          else val k)
        stack found act
        (fun k => if k = next.id then curr :: S next.id else S k)) := by
  have hnext_eta : (⟨next.id, σ next.id⟩ : Handle) = next := by
    rw [← hnor]
  -- shared facts about the updated bookkeeping
  have hS_nd : ∀ n ∈ L, ((if n = next.id then curr :: S next.id else S n)).Nodup := by
    intro n hn
    by_cases hk : n = next.id
    · rw [if_pos hk]
      exact List.nodup_cons.mpr ⟨hcnotS, inv.S_nd next.id hnL⟩
    · rw [if_neg hk]
      exact inv.S_nd n hn
  have hS_mem : ∀ n ∈ L, ∀ p ∈ (if n = next.id then curr :: S next.id else S n),
      p ∈ g.preds (⟨n, σ n⟩ : Handle) ∧
      (p.id ∈ q ∨ (p = curr ∧ (⟨n, σ n⟩ : Handle) ∈ pr ++ [next])) := by
    intro n hn p hp
    by_cases hk : n = next.id
    · subst hk
      rw [if_pos rfl] at hp
      rcases List.mem_cons.mp hp with h1 | h1
      · subst h1
        exact ⟨hcpred, Or.inr ⟨rfl, List.mem_append.mpr (Or.inr
          (List.mem_singleton.mpr hnext_eta))⟩⟩
      · obtain ⟨m1, m2⟩ := inv.S_mem next.id hn p h1
        refine ⟨m1, ?_⟩
        rcases m2 with h2 | h2
        · exact Or.inl h2
        · exact Or.inr ⟨h2.1, List.mem_append.mpr (Or.inl h2.2)⟩
    · rw [if_neg hk] at hp
      obtain ⟨m1, m2⟩ := inv.S_mem n hn p hp
      refine ⟨m1, ?_⟩
      rcases m2 with h2 | h2
      · exact Or.inl h2
      · exact Or.inr ⟨h2.1, List.mem_append.mpr (Or.inl h2.2)⟩
  have hS_com : ∀ n ∈ L, ∀ p ∈ g.preds (⟨n, σ n⟩ : Handle),
      (p.id ∈ q ∨ (p = curr ∧ (⟨n, σ n⟩ : Handle) ∈ pr ++ [next])) →
      p ∈ (if n = next.id then curr :: S next.id else S n) := by
    intro n hn p hp hcond
    by_cases hk : n = next.id
    · subst hk
      rw [if_pos rfl]
      rcases hcond with h1 | h1
      · exact List.mem_cons_of_mem _ (inv.S_com next.id hn p hp (Or.inl h1))
      · rw [h1.1]
        exact List.mem_cons_self _ _
    · rw [if_neg hk]
      rcases hcond with h1 | h1
      · exact inv.S_com n hn p hp (Or.inl h1)
      · rcases List.mem_append.mp h1.2 with h2 | h2
        · exact inv.S_com n hn p hp (Or.inr ⟨h1.1, h2⟩)
        · exfalso
          apply hk
          have : (⟨n, σ n⟩ : Handle).id = next.id := by
            rw [List.mem_singleton.mp h2]
          exact this
  constructor
  · -- activation: the counter reaches zero
    intro hfull
    refine ⟨?_, ?_, ?_, ?_, ?_, ?_, ?_, ?_, ?_, hS_nd, hS_mem, hS_com⟩
    · refine List.Nodup.append inv.act_nd (List.nodup_singleton _) ?_
      intro a ha hb
      rw [List.mem_singleton] at hb
      subst hb
      exact hnact ha
    · intro n hn
      rcases List.mem_append.mp hn with h1 | h1
      · exact inv.act_sub n h1
      · rw [List.mem_singleton] at h1
        subst h1
        exact hnL
    · refine (inv.act_perm.append_right [next.id]).trans ?_
      rw [List.map_cons, List.append_assoc]
      exact List.Perm.append_left _ List.perm_append_comm
    · intro h hh
      rcases List.mem_cons.mp hh with h1 | h1
      · subst h1
        exact hnor
      · exact inv.stack_or h h1
    · rw [inv.found_eq, List.length_append, List.length_singleton]
    · intro n hn hhp
      obtain ⟨v1, v2, v3⟩ := inv.val_head n hn hhp
      have hk : n ≠ next.id := by
        intro he
        exact hnothead (he ▸ hhp)
      rw [if_neg hk, if_neg hk]
      exact ⟨v1, v2, List.mem_append.mpr (Or.inl v3)⟩
    · intro n hn hnh hmem
      rcases List.mem_append.mp hmem with h1 | h1
      · have hk : n ≠ next.id := fun he => hnact (he ▸ h1)
        rw [if_neg hk, if_neg hk]
        exact inv.val_act n hn hnh h1
      · rw [List.mem_singleton] at h1
        subst h1
        rw [if_pos rfl, if_pos rfl]
        constructor
        · have h0 : (g.preds (⟨next.id, σ next.id⟩ : Handle)).length
              - ((S next.id).length + 1) = 0 := by omega
          rw [h0]
        · rw [List.length_cons, hfull]
    · intro n hn hnh hmem hS0
      have hnin : n ∉ act := fun hc => hmem (List.mem_append.mpr (Or.inl hc))
      have hk : n ≠ next.id := by
        intro he
        exact hmem (List.mem_append.mpr (Or.inr (List.mem_singleton.mpr he)))
      rw [if_neg hk] at hS0
      rw [if_neg hk]
      exact inv.val_unseen n hn hnh hnin hS0
    · intro n hn hnh hmem hSne
      have hnin : n ∉ act := fun hc => hmem (List.mem_append.mpr (Or.inl hc))
      have hk : n ≠ next.id := by
        intro he
        exact hmem (List.mem_append.mpr (Or.inr (List.mem_singleton.mpr he)))
      rw [if_neg hk] at hSne
      rw [if_neg hk, if_neg hk]
      exact inv.val_part n hn hnh hnin hSne
  · -- the counter stays positive: no activation
    intro hlt
    refine ⟨inv.act_nd, inv.act_sub, inv.act_perm, inv.stack_or, inv.found_eq,
      ?_, ?_, ?_, ?_, hS_nd, hS_mem, hS_com⟩
    · intro n hn hhp
      obtain ⟨v1, v2, v3⟩ := inv.val_head n hn hhp
      have hk : n ≠ next.id := by
        intro he
        exact hnothead (he ▸ hhp)
      rw [if_neg hk, if_neg hk]
      exact ⟨v1, v2, v3⟩
    · intro n hn hnh hmem
      have hk : n ≠ next.id := fun he => hnact (he ▸ hmem)
      rw [if_neg hk, if_neg hk]
      exact inv.val_act n hn hnh hmem
    · intro n hn hnh hmem hS0
      by_cases hk : n = next.id
      · exfalso
        rw [if_pos hk] at hS0
        exact List.cons_ne_nil _ _ hS0
      · rw [if_neg hk] at hS0
        rw [if_neg hk]
        exact inv.val_unseen n hn hnh hmem hS0
    · intro n hn hnh hmem hSne
      by_cases hk : n = next.id
      · subst hk
        rw [if_pos rfl, if_pos rfl]
        rw [List.length_cons]
        exact ⟨rfl, hlt⟩
      · rw [if_neg hk] at hSne
        rw [if_neg hk, if_neg hk]
        exact inv.val_part n hn hnh hmem hSne

/-- Invariant preservation for the `follow_edges` pass of
`is_nice_and_acyclic`: under the oriented-DAG hypotheses the pass never
aborts, and the invariant survives with the processed prefix extended. -/
theorem niceArrivals_inv (g : HandleGraphM) (σ : Nat → Bool) (L pres : List Nat)
    (hLp : ∀ n, n ∈ L ↔ n ∈ pres)
    (hcoh : ∀ a b : Handle, a.id ∈ pres → b.id ∈ pres →
      (b ∈ g.succs a ↔ a ∈ g.preds b))
    (hpnd : ∀ h : Handle, h.id ∈ pres → (g.preds h).Nodup)
    (hbnd : ∀ h : Handle, h.id ∈ pres → (g.preds h).length < 2 ^ 64 - 1)
    (hout : ∀ n ∈ L, ∀ s ∈ g.succs (⟨n, σ n⟩ : Handle), s.id ∈ L ∧ s.is_rev = σ s.id)
    (hhead : ∀ n ∈ L, ((g.preds (⟨n, σ n⟩ : Handle)).length = 0 ∨
      (g.preds (⟨n, false⟩ : Handle)).length = 0) → σ n = false)
    (curr : Handle) (hcL : curr.id ∈ L) (hcσ : curr.is_rev = σ curr.id)
    (hsuccnd : (g.succs curr).Nodup) :
    ∀ (sl pr : List Handle), pr ++ sl = g.succs curr →
    ∀ (val : Nat → Nat × Bool) (stack : List Handle) (found : Nat)
      (act q : List Nat) (S : Nat → List Handle),
      NiceInv g σ L q curr pr val stack found act S →
      ∃ val' stack' found' act' S',
        niceArrivals g pres sl val stack found = some (val', stack', found') ∧
        NiceInv g σ L q curr (pr ++ sl) val' stack' found' act' S' := by
  intro sl
  induction sl with
  | nil =>
    intro pr hprsl val stack found act q S inv
    refine ⟨val, stack, found, act, S, by simp [niceArrivals], ?_⟩
    rw [List.append_nil]
    exact inv
  | cons next rest ih =>
    intro pr hprsl val stack found act q S inv
    have hcurr_eta : (⟨curr.id, σ curr.id⟩ : Handle) = curr := by
      rw [← hcσ]
    have hnext_succ : next ∈ g.succs curr := by
      rw [← hprsl]
      exact List.mem_append.mpr (Or.inr (List.mem_cons_self _ _))
    have hnext_pr : next ∉ pr := by
      have hnds : (pr ++ next :: rest).Nodup := by
        rw [hprsl]
        exact hsuccnd
      intro hmem
      rcases List.nodup_append.mp hnds with ⟨-, -, hdisj⟩
      exact hdisj hmem (List.mem_cons_self next rest)
    have hnL : next.id ∈ L ∧ next.is_rev = σ next.id := by
      refine hout curr.id hcL next ?_
      rw [hcurr_eta]
      exact hnext_succ
    have hnpres : next.id ∈ pres := (hLp next.id).mp hnL.1
    have hcpres : curr.id ∈ pres := (hLp curr.id).mp hcL
    have hnext_eta : (⟨next.id, σ next.id⟩ : Handle) = next := by
      rw [← hnL.2]
    have hcpred : curr ∈ g.preds next := (hcoh curr next hcpres hnpres).mp hnext_succ
    have hplen_pos : 0 < (g.preds next).length := List.length_pos_of_mem hcpred
    have hplt : (g.preds next).length < 2 ^ 64 - 1 := hbnd next hnpres
    have hplt64 : (g.preds next).length < 2 ^ 64 := by
      rw [two_pow_64_eq]
      rw [two_pow_64_eq] at hplt
      omega
    have hcurr_not_q : curr.id ∉ q := by
      have hqnd : ((q ++ [curr.id]) ++ stack.map Handle.id).Nodup :=
        inv.act_perm.nodup_iff.mp inv.act_nd
      rcases List.nodup_append.mp hqnd with ⟨hql, -, -⟩
      rcases List.nodup_append.mp hql with ⟨-, -, hdisj⟩
      exact fun hc => hdisj hc (List.mem_cons_self _ _)
    have hcurr_notin_S : curr ∉ S next.id := by
      intro hc
      rcases (inv.S_mem next.id hnL.1 curr hc).2 with h1 | h1
      · exact hcurr_not_q h1
      · rw [hnext_eta] at h1
        exact hnext_pr h1.2
    have hnothead : ¬ (niceDegree g ⟨next.id, false⟩ = 0) := by
      intro hhp
      have hbf := hbnd ⟨next.id, false⟩ hnpres
      have hσf : σ next.id = false := by
        refine hhead next.id hnL.1 (Or.inr ?_)
        unfold niceDegree at hhp
        rw [two_pow_64_eq] at hhp
        rw [two_pow_64_eq] at hbf
        omega
      have hcmem : curr ∈ g.preds (⟨next.id, false⟩ : Handle) := by
        rw [← hσf, hnext_eta]
        exact hcpred
      have hpos := List.length_pos_of_mem hcmem
      unfold niceDegree at hhp
      rw [two_pow_64_eq] at hhp
      rw [two_pow_64_eq] at hbf
      omega
    have hnact : next.id ∉ act := by
      intro hc
      obtain ⟨-, hSfull⟩ := inv.val_act next.id hnL.1 hnothead hc
      have hsub : ∀ p ∈ g.preds (⟨next.id, σ next.id⟩ : Handle), p ∈ S next.id := by
        refine mem_of_subset_of_length_eq (inv.S_nd next.id hnL.1)
          (hpnd ⟨next.id, σ next.id⟩ hnpres)
          (fun p hp => (inv.S_mem next.id hnL.1 p hp).1) (le_of_eq hSfull.symm)
      apply hcurr_notin_S
      apply hsub curr
      rw [hnext_eta]
      exact hcpred
    have hprsl' : (pr ++ [next]) ++ rest = g.succs curr := by
      rw [List.append_assoc, List.singleton_append]
      exact hprsl
    have hassoc : pr ++ next :: rest = (pr ++ [next]) ++ rest := by
      rw [List.append_assoc, List.singleton_append]
    have harr := niceInv_arrive g σ L curr pr val stack found act q S next inv
      hnL.1 hnL.2 hnothead hnact (by rw [hnext_eta]; exact hcpred) hcurr_notin_S
    have hpσlen : (g.preds (⟨next.id, σ next.id⟩ : Handle)).length
        = (g.preds next).length := by
      rw [hnext_eta]
    by_cases hS0 : S next.id = []
    · -- first visit: the entry is NOT_SEEN
      have hval := inv.val_unseen next.id hnL.1 hnothead hnact hS0
      have hdeg : niceDegree g next = (g.preds next).length := niceDegree_eq hplt64
      have hdec : dec64 (niceDegree g next) = (g.preds next).length - 1 := by
        rw [hdeg]
        exact dec64_of_pos hplen_pos hplt64
      simp only [niceArrivals]
      rw [if_pos hnpres, hval]
      dsimp only
      rw [if_pos rfl, hdec]
      have hveq : (fun k => if k = next.id then
            ((g.preds next).length - 1, next.is_rev) else val k)
          = (fun k => if k = next.id then
            ((g.preds (⟨next.id, σ next.id⟩ : Handle)).length
              - ((S next.id).length + 1), σ next.id) else val k) := by
        funext k
        by_cases hk : k = next.id
        · rw [if_pos hk, if_pos hk, hpσlen, hS0, List.length_nil, hnL.2]
        · rw [if_neg hk, if_neg hk]
      by_cases hc0 : (g.preds next).length - 1 = 0
      · rw [if_pos hc0, hveq]
        have hinv1 := harr.1 (by rw [hpσlen, hS0, List.length_nil]; omega)
        obtain ⟨val', stack', found', act', S', heq, hinv'⟩ :=
          ih (pr ++ [next]) hprsl' _ (next :: stack) (found + 1)
            (act ++ [next.id]) q _ hinv1
        refine ⟨val', stack', found', act', S', heq, ?_⟩
        rw [hassoc]
        exact hinv'
      · rw [if_neg hc0, hveq]
        have hinv1 := harr.2 (by rw [hpσlen, hS0, List.length_nil]; omega)
        obtain ⟨val', stack', found', act', S', heq, hinv'⟩ :=
          ih (pr ++ [next]) hprsl' _ stack found act q _ hinv1
        refine ⟨val', stack', found', act', S', heq, ?_⟩
        rw [hassoc]
        exact hinv'
    · -- later visit: the entry holds a live counter and the orientation
      obtain ⟨hval0, hSlt⟩ := inv.val_part next.id hnL.1 hnothead hnact hS0
      have hval : val next.id
          = ((g.preds next).length - (S next.id).length, σ next.id) := by
        rw [hval0, hpσlen]
      have hSlt' : (S next.id).length < (g.preds next).length := by
        rw [← hpσlen]
        exact hSlt
      simp only [niceArrivals]
      rw [if_pos hnpres, hval]
      dsimp only
      have hne1 : ¬((g.preds next).length - (S next.id).length = NOT_SEEN) := by
        unfold NOT_SEEN
        rw [two_pow_64_eq]
        rw [two_pow_64_eq] at hplt
        omega
      rw [if_neg hne1, if_neg (not_not_intro hnL.2)]
      have hdec : dec64 ((g.preds next).length - (S next.id).length)
          = (g.preds next).length - ((S next.id).length + 1) := by
        rw [dec64_of_pos (by omega) (by omega)]
        omega
      rw [hdec]
      have hveq : (fun k => if k = next.id then
            ((g.preds next).length - ((S next.id).length + 1), σ next.id) else val k)
          = (fun k => if k = next.id then
            ((g.preds (⟨next.id, σ next.id⟩ : Handle)).length
              - ((S next.id).length + 1), σ next.id) else val k) := by
        funext k
        by_cases hk : k = next.id
        · rw [if_pos hk, if_pos hk, hpσlen]
        · rw [if_neg hk, if_neg hk]
      by_cases hc0 : (g.preds next).length - ((S next.id).length + 1) = 0
      · rw [if_pos hc0, hveq]
        have hinv1 := harr.1 (by rw [hpσlen]; omega)
        obtain ⟨val', stack', found', act', S', heq, hinv'⟩ :=
          ih (pr ++ [next]) hprsl' _ (next :: stack) (found + 1)
            (act ++ [next.id]) q _ hinv1
        refine ⟨val', stack', found', act', S', heq, ?_⟩
        rw [hassoc]
        exact hinv'
      · rw [if_neg hc0, hveq]
        have hinv1 := harr.2 (by rw [hpσlen]; omega)
        obtain ⟨val', stack', found', act', S', heq, hinv'⟩ :=
          ih (pr ++ [next]) hprsl' _ stack found act q _ hinv1
        refine ⟨val', stack', found', act', S', heq, ?_⟩
        rw [hassoc]
        exact hinv'

/-- The traversal loop completes under the oriented-DAG hypotheses: it never
aborts and ends having activated every present node exactly once. -/
theorem niceLoop_inv (g : HandleGraphM) (σ : Nat → Bool) (L pres : List Nat)
    (hLp : ∀ n, n ∈ L ↔ n ∈ pres)
    (hLnd : L.Nodup)
    (hcoh : ∀ a b : Handle, a.id ∈ pres → b.id ∈ pres →
      (b ∈ g.succs a ↔ a ∈ g.preds b))
    (hsnd : ∀ h : Handle, h.id ∈ pres → (g.succs h).Nodup)
    (hpnd : ∀ h : Handle, h.id ∈ pres → (g.preds h).Nodup)
    (hbnd : ∀ h : Handle, h.id ∈ pres → (g.preds h).length < 2 ^ 64 - 1)
    (hout : ∀ n ∈ L, ∀ s ∈ g.succs (⟨n, σ n⟩ : Handle), s.id ∈ L ∧ s.is_rev = σ s.id)
    (hin : ∀ n ∈ L, ∀ p ∈ g.preds (⟨n, σ n⟩ : Handle), p.id ∈ L ∧ p.is_rev = σ p.id)
    (hself : ∀ n ∈ L, (⟨n, σ n⟩ : Handle) ∉ g.succs ⟨n, σ n⟩)
    (hpair : L.Pairwise (fun a b => (⟨a, σ a⟩ : Handle) ∉ g.succs ⟨b, σ b⟩))
    (hhead : ∀ n ∈ L, ((g.preds (⟨n, σ n⟩ : Handle)).length = 0 ∨
      (g.preds (⟨n, false⟩ : Handle)).length = 0) → σ n = false) :
    ∀ (fuel : Nat) (val : Nat → Nat × Bool) (stack : List Handle) (found : Nat)
      (act q : List Nat) (S : Nat → List Handle),
      NiceInvL g σ L q val stack found act S →
      L.length - q.length < fuel →
      niceLoop g pres fuel val stack found = some L.length := by
  intro fuel
  induction fuel with
  | zero =>
    intro val stack found act q S inv hfuel
    exact absurd hfuel (Nat.not_lt_zero _)
  | succ fu ih =>
    intro val stack found act q S inv hfuel
    cases stack with
    | nil =>
      -- the stack is empty: every present node has been activated
      simp only [niceLoop]
      have hqperm : act.Perm q := by
        have h1 := inv.act_perm
        rw [List.map_nil, List.append_nil] at h1
        exact h1
      have hallk : ∀ k, ∀ hk : k < L.length, L[k] ∈ act := by
        intro k
        induction k using Nat.strong_induction_on with
        | _ k ihk =>
          intro hk
          by_contra hmact
          have hmL : L[k] ∈ L := List.getElem_mem hk
          have hmpres : L[k] ∈ pres := (hLp _).mp hmL
          have hnothead : ¬ (niceDegree g ⟨L[k], false⟩ = 0) := by
            intro hh
            exact hmact (inv.val_head _ hmL hh).2.2
          have hpredS : ∀ p ∈ g.preds (⟨L[k], σ (L[k])⟩ : Handle), p ∈ S (L[k]) := by
            intro p hp
            obtain ⟨hpL, hpσ⟩ := hin _ hmL p hp
            have hpeta : (⟨p.id, σ p.id⟩ : Handle) = p := by
              rw [← hpσ]
            obtain ⟨i, hiL, hie⟩ := List.mem_iff_getElem.mp hpL
            rcases Nat.lt_trichotomy i k with hik | hik | hik
            · have hpact : p.id ∈ act := by
                rw [← hie]
                exact ihk i hik hiL
              exact inv.S_com _ hmL p hp (hqperm.mem_iff.mp hpact)
            · exfalso
              subst hik
              have hedge : (⟨L[i], σ (L[i])⟩ : Handle) ∈ g.succs ⟨p.id, σ p.id⟩ := by
                rw [hpeta]
                exact (hcoh p _ ((hLp p.id).mp hpL) hmpres).mpr hp
              rw [← hie] at hedge
              exact hself _ hmL hedge
            · exfalso
              have hpair' := List.pairwise_iff_getElem.mp hpair k i hk hiL hik
              apply hpair'
              rw [hie, hpeta]
              exact (hcoh p _ ((hLp p.id).mp hpL) hmpres).mpr hp
          by_cases hS0 : S (L[k]) = []
          · have hpe : g.preds (⟨L[k], σ (L[k])⟩ : Handle) = [] := by
              refine List.eq_nil_iff_forall_not_mem.mpr ?_
              intro p hp
              have := hpredS p hp
              rw [hS0] at this
              exact List.not_mem_nil p this
            have hσf : σ (L[k]) = false := hhead _ hmL (Or.inl (by rw [hpe]; rfl))
            apply hnothead
            unfold niceDegree
            rw [← hσf, hpe]
            rfl
          · obtain ⟨-, hlt⟩ := inv.val_part _ hmL hnothead hmact hS0
            have hlen : (g.preds (⟨L[k], σ (L[k])⟩ : Handle)).length
                ≤ (S (L[k])).length := by
              have hpnd' := hpnd ⟨L[k], σ (L[k])⟩ hmpres
              exact (hpnd'.subperm (fun p hp => hpredS p hp)).length_le
            omega
      have hLact : ∀ n ∈ L, n ∈ act := by
        intro n hn
        obtain ⟨i, hi, hie⟩ := List.mem_iff_getElem.mp hn
        rw [← hie]
        exact hallk i hi
      have hperm : act.Perm L := by
        rw [List.perm_ext_iff_of_nodup inv.act_nd hLnd]
        intro n
        exact ⟨fun hn => inv.act_sub n hn, fun hn => hLact n hn⟩
      rw [inv.found_eq, hperm.length_eq]
    | cons curr stk =>
      simp only [niceLoop]
      have hcact : curr.id ∈ act := by
        refine inv.act_perm.mem_iff.mpr ?_
        rw [List.map_cons]
        exact List.mem_append.mpr (Or.inr (List.mem_cons_self _ _))
      have hcL : curr.id ∈ L := inv.act_sub _ hcact
      have hcσ : curr.is_rev = σ curr.id := inv.stack_or curr (List.mem_cons_self _ _)
      have hcpres : curr.id ∈ pres := (hLp _).mp hcL
      -- the step-level invariant for the popped handle
      have hstepinv : NiceInv g σ L q curr [] val stk found act S := by
        refine ⟨inv.act_nd, inv.act_sub, ?_, ?_, inv.found_eq, inv.val_head,
          inv.val_act, inv.val_unseen, inv.val_part, inv.S_nd, ?_, ?_⟩
        · have h1 := inv.act_perm
          rw [List.map_cons] at h1
          rw [List.append_assoc, List.singleton_append]
          exact h1
        · intro h hh
          exact inv.stack_or h (List.mem_cons_of_mem _ hh)
        · intro n hn p hp
          obtain ⟨m1, m2⟩ := inv.S_mem n hn p hp
          exact ⟨m1, Or.inl m2⟩
        · intro n hn p hp hcond
          rcases hcond with h1 | h1
          · exact inv.S_com n hn p hp h1
          · exact absurd h1.2 (List.not_mem_nil _)
      obtain ⟨val2, stack2, found2, act2, S2, heq, hinv2⟩ :=
        niceArrivals_inv g σ L pres hLp hcoh hpnd hbnd hout hhead curr hcL hcσ
          (hsnd curr hcpres) (g.succs curr) [] rfl val stk found act q S hstepinv
      rw [heq]
      -- loop-level invariant with `curr` popped
      have hinvL2 : NiceInvL g σ L (q ++ [curr.id]) val2 stack2 found2 act2 S2 := by
        have hnil : ([] : List Handle) ++ g.succs curr = g.succs curr := rfl
        rw [hnil] at hinv2
        refine ⟨hinv2.act_nd, hinv2.act_sub, hinv2.act_perm, hinv2.stack_or,
          hinv2.found_eq, hinv2.val_head, hinv2.val_act, hinv2.val_unseen,
          hinv2.val_part, hinv2.S_nd, ?_, ?_⟩
        · intro n hn p hp
          obtain ⟨m1, m2⟩ := hinv2.S_mem n hn p hp
          refine ⟨m1, ?_⟩
          rcases m2 with h1 | h1
          · exact List.mem_append.mpr (Or.inl h1)
          · rw [h1.1]
            exact List.mem_append.mpr (Or.inr (List.mem_singleton.mpr rfl))
        · intro n hn p hp hcond
          rcases List.mem_append.mp hcond with h1 | h1
          · exact hinv2.S_com n hn p hp (Or.inl h1)
          · rw [List.mem_singleton] at h1
            obtain ⟨hpL2, hpσ2⟩ := hin n hn p hp
            have hrev : p.is_rev = curr.is_rev := by
              rw [hpσ2, h1, hcσ]
            have hpc : p = curr := by
              have h2 : (⟨p.id, p.is_rev⟩ : Handle)
                  = (⟨curr.id, curr.is_rev⟩ : Handle) := by
                rw [h1, hrev]
              exact h2
            refine hinv2.S_com n hn p hp (Or.inr ⟨hpc, ?_⟩)
            rw [hpc] at hp
            exact (hcoh curr ⟨n, σ n⟩ hcpres ((hLp n).mp hn)).mpr hp
      -- fuel accounting
      have hqlt : q.length + 1 ≤ L.length := by
        have h1 : (q ++ curr.id :: stk.map Handle.id).Nodup := by
          have h2 := inv.act_perm
          rw [List.map_cons] at h2
          exact h2.nodup_iff.mp inv.act_nd
        have h3 : act.length = q.length + 1 + (stk.map Handle.id).length := by
          have h2 := inv.act_perm
          rw [List.map_cons] at h2
          rw [h2.length_eq, List.length_append, List.length_cons]
          omega
        have h4 : act.length ≤ L.length :=
          (inv.act_nd.subperm (fun n hn => inv.act_sub n hn)).length_le
        omega
      refine ih val2 stack2 found2 act2 (q ++ [curr.id]) S2 hinvL2 ?_
      rw [List.length_append, List.length_singleton]
      omega

/-- C6: `is_nice_and_acyclic` returns either the head-node list (present
component nodes whose forward handle has indegree zero, in component order)
or the empty list — the empty list on any failure — and whenever the
component restricted to the graph is an orientation-consistent DAG it
returns the head-node list; component nodes missing from the graph are
excluded from the activation count (the guard compares against
`comp.length - missing`, which equals the number of present nodes), not
treated as failures.  Hypotheses: duplicate-free component (the C++ caller
passes a weakly connected component), coherent and duplicate-free adjacency
lists for present nodes, and predecessor counts below `2^64 - 1` (`size_t`
counters distinct from the `NOT_SEEN` sentinel). -/
theorem is_nice_and_acyclic_spec (g : HandleGraphM) (comp : List Nat)
    (hnd : comp.Nodup)
    (hcoh : ∀ a ∈ comp.filter g.has_node, ∀ (ra : Bool),
      ∀ b ∈ comp.filter g.has_node, ∀ (rb : Bool),
      ((⟨b, rb⟩ : Handle) ∈ g.succs ⟨a, ra⟩ ↔ (⟨a, ra⟩ : Handle) ∈ g.preds ⟨b, rb⟩))
    (hsnd : ∀ n ∈ comp.filter g.has_node, ∀ (r : Bool),
      (g.succs (⟨n, r⟩ : Handle)).Nodup)
    (hpnd : ∀ n ∈ comp.filter g.has_node, ∀ (r : Bool),
      (g.preds (⟨n, r⟩ : Handle)).Nodup)
    (hbnd : ∀ n ∈ comp.filter g.has_node, ∀ (r : Bool),
      (g.preds (⟨n, r⟩ : Handle)).length < 2 ^ 64 - 1) :
    (is_nice_and_acyclic g comp = niceHeads g comp ∨
      is_nice_and_acyclic g comp = []) ∧
    (NiceOrientedDag g comp → is_nice_and_acyclic g comp = niceHeads g comp) := by
  constructor
  · -- the result is the head list or empty
    unfold is_nice_and_acyclic
    by_cases hemp : comp.isEmpty = true
    · rw [if_pos hemp]
      exact Or.inr rfl
    · rw [if_neg hemp]
      cases hloop : niceLoop g (comp.filter g.has_node) (comp.length + 1)
          (niceInit g comp).1 (niceInit g comp).2.1
          (niceInit g comp).2.2.length with
      | none => exact Or.inr rfl
      | some found =>
        dsimp only
        by_cases hfc : found ≠ comp.length - comp.countP (fun n => ! g.has_node n)
        · rw [if_pos hfc]
          exact Or.inr rfl
        · rw [if_neg hfc]
          left
          rw [niceInit_eq]
  · -- completeness: an orientation-consistent DAG yields the head list
    rintro ⟨σ, L, hLnd, hLin, hLall, hout, hin, hself, hpair, hhead⟩
    by_cases hemp : comp.isEmpty = true
    · have hcnil : comp = [] := by
        cases comp with
        | nil => rfl
        | cons a t => exact absurd hemp (by simp [List.isEmpty])
      subst hcnil
      rfl
    -- bridged adjacency hypotheses over handles
    have hcoh' : ∀ a b : Handle, a.id ∈ comp.filter g.has_node →
        b.id ∈ comp.filter g.has_node → (b ∈ g.succs a ↔ a ∈ g.preds b) := by
      intro a b ha hb
      exact hcoh a.id ha a.is_rev b.id hb b.is_rev
    have hsnd' : ∀ h : Handle, h.id ∈ comp.filter g.has_node →
        (g.succs h).Nodup := fun h hh => hsnd h.id hh h.is_rev
    have hpnd' : ∀ h : Handle, h.id ∈ comp.filter g.has_node →
        (g.preds h).Nodup := fun h hh => hpnd h.id hh h.is_rev
    have hbnd' : ∀ h : Handle, h.id ∈ comp.filter g.has_node →
        (g.preds h).length < 2 ^ 64 - 1 := fun h hh => hbnd h.id hh h.is_rev
    have hLp : ∀ n, n ∈ L ↔ n ∈ comp.filter g.has_node := by
      intro n
      constructor
      · intro hn
        exact List.mem_filter.mpr ⟨(hLin n hn).1, (hLin n hn).2⟩
      · intro hn
        exact hLall n (List.mem_filter.mp hn).1 (List.mem_filter.mp hn).2
    have hpresnd : (comp.filter g.has_node).Nodup := hnd.filter _
    have hσhead : ∀ n ∈ L, niceDegree g ⟨n, false⟩ = 0 → σ n = false := by
      intro n hn hdeg0
      refine hhead n hn (Or.inr ?_)
      have hb := hbnd' ⟨n, false⟩ ((hLp n).mp hn)
      unfold niceDegree at hdeg0
      rw [two_pow_64_eq] at hdeg0 hb
      omega
    -- the initial loop invariant
    have hinv0 : NiceInvL g σ L []
        (fun k => if k ∈ comp.filter g.has_node then
          (if niceDegree g ⟨k, false⟩ = 0 then ((0 : Nat), false)
           else (NOT_SEEN, false))
          else (0, false))
        ((niceHeads g comp).reverse.map (fun n => (⟨n, false⟩ : Handle)))
        (niceHeads g comp).length (niceHeads g comp) (fun _ => []) := by
      refine ⟨(hnd.filter _).filter _, ?_, ?_, ?_, rfl, ?_, ?_, ?_, ?_, ?_, ?_, ?_⟩
      · intro n hn
        exact (hLp n).mpr (List.mem_filter.mp hn).1
      · rw [List.nil_append, List.map_map]
        have hmm : ((niceHeads g comp).reverse.map
            (Handle.id ∘ fun n => (⟨n, false⟩ : Handle))) = (niceHeads g comp).reverse :=
          List.map_id _
        rw [hmm]
        exact (List.reverse_perm _).symm
      · intro h hh
        obtain ⟨n, hn, he⟩ := List.mem_map.mp hh
        have hnh : n ∈ niceHeads g comp := List.mem_reverse.mp hn
        have hnL : n ∈ L := (hLp n).mpr (List.mem_filter.mp hnh).1
        have hdeg0 : niceDegree g ⟨n, false⟩ = 0 :=
          of_decide_eq_true (List.mem_filter.mp hnh).2
        rw [← he]
        exact (hσhead n hnL hdeg0).symm
      · intro n hn hhp
        refine ⟨?_, rfl, ?_⟩
        · rw [if_pos ((hLp n).mp hn), if_pos hhp]
        · exact List.mem_filter.mpr ⟨(hLp n).mp hn, decide_eq_true hhp⟩
      · intro n hn hnh hmem
        exact absurd (of_decide_eq_true (List.mem_filter.mp hmem).2) hnh
      · intro n hn hnh hmem hS0
        rw [if_pos ((hLp n).mp hn), if_neg hnh]
      · intro n hn hnh hmem hSne
        exact absurd rfl hSne
      · intro n hn
        exact List.nodup_nil
      · intro n hn p hp
        exact absurd hp (List.not_mem_nil p)
      · intro n hn p hp hq
        exact absurd hq (List.not_mem_nil _)
    have hLperm : L.Perm (comp.filter g.has_node) := by
      rw [List.perm_ext_iff_of_nodup hLnd hpresnd]
      exact hLp
    have hfuel : L.length - ([] : List Nat).length < comp.length + 1 := by
      have h1 : L.length = (comp.filter g.has_node).length := hLperm.length_eq
      have h2 : (comp.filter g.has_node).length ≤ comp.length :=
        List.length_filter_le _ _
      simp only [List.length_nil]
      omega
    have hloopres := niceLoop_inv g σ L (comp.filter g.has_node) hLp hLnd hcoh'
      hsnd' hpnd' hbnd' hout hin hself hpair hhead (comp.length + 1) _ _ _ _ _ _
      hinv0 hfuel
    -- assemble
    have hsplit : comp.length
        = comp.countP g.has_node + comp.countP (fun n => ! g.has_node n) := by
      simpa using List.length_eq_countP_add_countP (l := comp) g.has_node
    have hfl : (comp.filter g.has_node).length = comp.countP g.has_node :=
      (List.countP_eq_length_filter _ _).symm
    have hLlen : L.length = comp.length - comp.countP (fun n => ! g.has_node n) := by
      have h1 : L.length = (comp.filter g.has_node).length := hLperm.length_eq
      omega
    unfold is_nice_and_acyclic
    rw [if_neg hemp, niceInit_eq]
    dsimp only
    rw [hloopres]
    dsimp only
    rw [if_neg (not_not_intro hLlen)]

/-- Witness for C6: component `[1, 2, 3]` where node `3` is missing from the
graph and the present part is the oriented DAG `1+ → 2+`; the traversal
succeeds and returns the head list `[1]`. -/
theorem is_nice_and_acyclic_spec_witness :
    is_nice_and_acyclic (HandleGraphM.mk [1, 2] 1 2 (fun n => n == 1 || n == 2)
        (fun h => if h = ⟨1, false⟩ then [⟨2, false⟩] else [])
        (fun h => if h = ⟨2, false⟩ then [⟨1, false⟩] else [])) [1, 2, 3]
      = niceHeads (HandleGraphM.mk [1, 2] 1 2 (fun n => n == 1 || n == 2)
        (fun h => if h = ⟨1, false⟩ then [⟨2, false⟩] else [])
        (fun h => if h = ⟨2, false⟩ then [⟨1, false⟩] else [])) [1, 2, 3] :=
  (is_nice_and_acyclic_spec (HandleGraphM.mk [1, 2] 1 2 (fun n => n == 1 || n == 2)
      (fun h => if h = ⟨1, false⟩ then [⟨2, false⟩] else [])
      (fun h => if h = ⟨2, false⟩ then [⟨1, false⟩] else [])) [1, 2, 3]
    (by decide) (by decide) (by decide) (by decide) (by decide)).2
    ⟨fun _ => false, [1, 2], by decide, by decide, by decide, by decide,
      by decide, by decide, by decide, by decide⟩

end GbwtGraph
